import Mathlib

/-!
Verification of the sequential upload-processing queue and document-ingestion
pipeline of the Baumaschinen chatbot backend.

The Lean definitions below are a shallow embedding of the Python sources:
  * `backend/app/services/upload_queue_service.py` (queue service and processor loop)
  * `backend/app/services/document_processor.py`   (pipeline and chunker)
  * `backend/app/services/document_events.py`      (progress broadcaster)
  * `backend/app/main.py`                          (startup recovery)
  * `backend/app/api/v1/endpoints/queue.py`        (admin removal)
  * `backend/app/api/v1/endpoints/documents.py`    (upload admission)

MongoDB collections are modelled as Lean lists of records; `find_one` with a
sort becomes a search over an insertion-sorted copy; `update_one`,
`delete_one` update or delete the first matching record; `update_many` maps
over all records.  The tiktoken encoder is external to the repository and is
modelled as an abstract token-counting function `tok : String → Nat`
(standing for `len(encoding.encode(s))`).  Timestamps are integers (seconds).
-/

namespace Chatbot

/-- `UploadQueueModel` from `app/models/upload_queue.py`, restricted to the
fields the queue service reads or writes (`filename`, `file_path` and the
timestamps are carried along by the code but never branch-relevant here). -/
structure QueueItem where
  queue_id : String
  document_id : String
  status : String
  position : Nat
  deriving Repr, DecidableEq

/-- `DocumentMetadataModel` from `app/models/document.py`, restricted to the
fields the core subsystem branches on.  `upload_date` is seconds since epoch. -/
structure MetaRec where
  document_id : String
  processing_status : String
  processing_step : Option String := none
  processing_progress : Option Nat := none
  chunk_count : Option Nat := none
  error_message : Option String := none
  upload_date : Int := 0
  deleted : Bool := false
  deriving Repr, DecidableEq

/-! ## Upload queue service (`upload_queue_service.py`) -/

/-- `find_one(sort=[("position", -1)])` followed by `max_position["position"]`:
the largest `position` in the collection, `0` when empty (so that
`next_position` comes out as `1`, matching the `else 1` branch). -/
def maxPosition (q : List QueueItem) : Nat :=
  q.foldr (fun it m => max it.position m) 0

/-- The `UploadQueueModel(...)` literal built by `add_to_queue`:
`queue_id = "queue_" + document_id`, `status = "pending"`. -/
def mkQueueItem (document_id : String) (pos : Nat) : QueueItem :=
  { queue_id := "queue_" ++ document_id
    document_id := document_id
    status := "pending"
    position := pos }

/-- `UploadQueueService.add_to_queue` (lines 28-63): computes
`next_position = max_position + 1` (or `1` when the queue is empty) and
inserts a new pending item.  Returns the new collection and the item. -/
def add_to_queue (document_id : String) (q : List QueueItem) :
    List QueueItem × QueueItem :=
  let it := mkQueueItem document_id (maxPosition q + 1)
  (q ++ [it], it)

/-- Insertion step of a stable sort by `position` (MongoDB
`find().sort("position", 1)`). -/
def insertByPos (x : QueueItem) : List QueueItem → List QueueItem
  | [] => [x]
  | y :: ys => if x.position ≤ y.position then x :: y :: ys else y :: insertByPos x ys

/-- The collection read back in ascending `position` order. -/
def sortByPosition (q : List QueueItem) : List QueueItem :=
  q.foldr insertByPos []

/-- Positional renumbering `1..N` — the effect `_reorder_queue` intends.
The code realizes it through per-item `update_one` calls keyed by
`queue_id` (`updFirstQ`/`reorderLoop` below); the two coincide exactly when
the queue ids are pairwise distinct (`reorderLoop_renumber`). -/
def renumberFrom : List QueueItem → Nat → List QueueItem
  | [], _ => []
  | x :: xs, n => { x with position := n } :: renumberFrom xs (n + 1)

/-- `update_one({"queue_id": qid}, {"$set": {"position": p}})`: sets the
position of the first record with the given `queue_id`, in place. -/
def updFirstQ (qid : String) (p : Nat) : List QueueItem → List QueueItem
  | [] => []
  | x :: xs =>
    if x.queue_id = qid then { x with position := p } :: xs
    else x :: updFirstQ qid p xs

/-- The update loop of `_reorder_queue` (lines 104-109): iterate with
`enumerate(items, start=1)` over the position-sorted snapshot (whose
`position` values were read before any update); whenever the snapshot
position differs from `idx`, issue an `update_one` keyed by the item's
`queue_id` against the live collection.  The keyed update matters: the
`upload_queue` collection has no unique index, so with duplicate
`queue_id`s every update hits the same first-matching record. -/
def reorderLoop : List QueueItem → Nat → List QueueItem → List QueueItem
  | [], _, coll => coll
  | item :: rest, idx, coll =>
    reorderLoop rest (idx + 1)
      (if item.position ≠ idx then updFirstQ item.queue_id idx coll else coll)

/-- `UploadQueueService._reorder_queue` (lines 100-109): read all items
sorted by `position`, then renumber via `update_one`s keyed by `queue_id`.
The collection stays in insertion (natural) order; updates are in place. -/
def reorder_queue (q : List QueueItem) : List QueueItem :=
  reorderLoop (sortByPosition q) 1 q

/-- `delete_one({"queue_id": queue_id})`: removes the first matching record. -/
def eraseFirstQ (qid : String) : List QueueItem → List QueueItem
  | [] => []
  | x :: xs => if x.queue_id = qid then xs else x :: eraseFirstQ qid xs

/-- `UploadQueueService.remove_from_queue` (lines 88-98): delete the item;
when something was deleted, run the renumbering pass and return `true`. -/
def remove_from_queue (qid : String) (q : List QueueItem) :
    List QueueItem × Bool :=
  if q.any (fun it => it.queue_id = qid) then
    (reorder_queue (eraseFirstQ qid q), true)
  else
    (q, false)

/-- `find_one({"status": "pending"}, sort=[("position", 1)])` in
`_process_queue` (lines 127-130): the first pending item in ascending
`position` order. -/
def find_next_pending (q : List QueueItem) : Option QueueItem :=
  (sortByPosition q).find? (fun it => it.status == "pending")

/-- `get_queue_item` (lines 71-74): `find_one({"queue_id": queue_id})`. -/
def get_queue_item (qid : String) (q : List QueueItem) : Option QueueItem :=
  q.find? (fun it => it.queue_id == qid)

/-- A sequentially applied queue operation (claim C3 quantifies over these). -/
inductive QueueOp
  | enqueue (document_id : String)
  | remove (queue_id : String)

/-- One operation applied to the durable queue collection. -/
def applyOp (q : List QueueItem) : QueueOp → List QueueItem
  | .enqueue d => (add_to_queue d q).1
  | .remove qid => (remove_from_queue qid q).1

/-- A sequence of enqueue/remove operations run from the empty queue. -/
def runOps (ops : List QueueOp) : List QueueItem :=
  ops.foldl applyOp []

/-- The document ids of the enqueue operations of a sequence.  Upload
admission generates every enqueued `document_id` as a fresh UUID
(`endpoints/documents.py` line 95), so in the running system these are
pairwise distinct. -/
def enqueuedIds (ops : List QueueOp) : List String :=
  ops.filterMap (fun op => match op with
    | .enqueue d => some d
    | .remove _ => none)

/-! ## Chunker (`document_processor.py`, `_chunk_text`, lines 711-781) -/

/-- Python string slicing `s[:n]`: the first `n` characters. -/
def pyTake (s : String) (n : Nat) : String := String.mk (s.toList.take n)

/-- Python `str.strip()`: drop whitespace from both ends. -/
def pyStrip (s : String) : String :=
  String.mk
    (((s.toList.dropWhile Char.isWhitespace).reverse.dropWhile
        Char.isWhitespace).reverse)

/-- The sentence-splitting loop (lines 730-741): characters accumulate into
`current_sentence`; on `.`, `!` or `?` with more than 10 characters
accumulated, the stripped sentence is emitted; a non-empty remainder is
emitted stripped at the end. -/
def splitSentencesAux : List Char → List Char → List String
  | [], cur => if cur.isEmpty then [] else [pyStrip (String.mk cur)]
  | c :: rest, cur =>
    let cur' := cur ++ [c]
    if (c = '.' ∨ c = '!' ∨ c = '?') ∧ cur'.length > 10 then
      pyStrip (String.mk cur') :: splitSentencesAux rest []
    else
      splitSentencesAux rest cur'

/-- `text` split into sentences on `.!?` boundaries. -/
def splitSentences (text : String) : List String :=
  splitSentencesAux text.toList []

/-- The overlap-collection loop (lines 757-765) viewed from the tail:
iterates over `reversed(current_chunk)`, keeping trailing sentences while
the running total stays within the overlap budget, and stops at the first
sentence that does not fit.  Returns the kept sentences in original order
together with their token total. -/
def takeOverlapRev (tok : String → Nat) (ov : Nat) :
    List String → Nat → List String × Nat
  | [], t => ([], t)
  | s :: r, t =>
    if t + tok s ≤ ov then
      let p := takeOverlapRev tok ov r (t + tok s)
      (p.1 ++ [s], p.2)
    else ([], t)

/-- `overlap_sentences`/`overlap_tokens` computed from a just-closed chunk. -/
def overlapOf (tok : String → Nat) (ov : Nat) (cur : List String) :
    List String × Nat :=
  takeOverlapRev tok ov cur.reverse 0

/-- The chunk-building loop (lines 744-776) at sentence granularity.
`cur`/`curTok` are `current_chunk`/`current_tokens`.  When adding the next
sentence would exceed `cs` and the current chunk is non-empty, the chunk is
closed and the next one is seeded with the overlap sentences; the final
non-empty chunk is emitted at the end. -/
def chunkLoop (tok : String → Nat) (cs ov : Nat) :
    List String → List String → Nat → List (List String)
  | [], cur, _ => if cur.isEmpty then [] else [cur]
  | s :: rest, cur, curTok =>
    let st := tok s
    if curTok + st > cs ∧ ¬ cur.isEmpty then
      let p := overlapOf tok ov cur
      cur :: chunkLoop tok cs ov rest (p.1 ++ [s]) (p.2 + st)
    else
      chunkLoop tok cs ov rest (cur ++ [s]) (curTok + st)

/-- The chunk list of `_chunk_text` before joining and filtering, at sentence
granularity (each chunk is its list of sentences). -/
def sentChunks (tok : String → Nat) (text : String) (cs ov : Nat) :
    List (List String) :=
  chunkLoop tok cs ov (splitSentences text) [] 0

/-- `DocumentProcessor._chunk_text`: chunks joined with a single space
(`' '.join(current_chunk)`), then chunks of at most 10 tokens dropped
(line 779). -/
def chunkText (tok : String → Nat) (text : String) (cs ov : Nat) :
    List String :=
  ((sentChunks tok text cs ov).map (fun c => String.intercalate " " c)).filter
    (fun c => tok c > 10)

/-- The same filtered chunk list at sentence granularity (the image of
`chunkText` before joining; see `chunkText_eq_map_join`). -/
def sentChunksFiltered (tok : String → Nat) (text : String) (cs ov : Nat) :
    List (List String) :=
  (sentChunks tok text cs ov).filter
    (fun c => tok (String.intercalate " " c) > 10)

/-- Total token count of a chunk, sentence by sentence. -/
def sentSum (tok : String → Nat) (c : List String) : Nat :=
  (c.map tok).sum

/-- Largest single-sentence token count of a text. -/
def maxSentTok (tok : String → Nat) (text : String) : Nat :=
  ((splitSentences text).map tok).foldr max 0

/-! ## Document metadata collection primitives -/

/-- `update_one({"document_id": d}, {"$set": ...})`: applies `f` to the first
record with the given `document_id`. -/
def metaUpdateFirst (d : String) (f : MetaRec → MetaRec) :
    List MetaRec → List MetaRec
  | [] => []
  | r :: rs => if r.document_id = d then f r :: rs else r :: metaUpdateFirst d f rs

/-- `find_one({"document_id": d})`. -/
def metaFind (d : String) (m : List MetaRec) : Option MetaRec :=
  m.find? (fun r => r.document_id == d)

/-- `delete_one({"document_id": d})`. -/
def metaDeleteFirst (d : String) : List MetaRec → List MetaRec
  | [] => []
  | r :: rs => if r.document_id = d then rs else r :: metaDeleteFirst d rs

/-! ## Document pipeline (`document_processor.py`, `process_document`) -/

/-- An embedding vector.  The numeric contents come from the external OpenAI
service and are never inspected by the pipeline, only counted. -/
abbrev Embedding := List Int

/-- Outcomes of the external collaborators of one `process_document` run:
`extract` is the combined result of `_extract_text_with_progress` with the
`_extract_text` fallback (a raised error or the extracted text); `embed` is
one `openai_service.generate_embeddings_batch` call on a batch; `upsert` is
one `pinecone_service.upsert_vectors` call on a batch. -/
structure PipeEnv where
  tok : String → Nat
  extract : Except String String
  embed : List String → Except String (List Embedding)
  upsert : List (String × Embedding × Nat × String) → Except String Unit

/-- `range(0, len(chunks), batch_size)` slicing with `batch_size = 100`. -/
def batched100 {α : Type} : List α → List (List α)
  | [] => []
  | x :: xs => (x :: xs).take 100 :: batched100 ((x :: xs).drop 100)
termination_by l => l.length
decreasing_by simp [List.length_drop]; omega

/-- The batch loop of `_generate_embeddings_batch` (lines 801-812): batches
submitted sequentially, extending the accumulator; the first error raises. -/
def runBatches (f : List String → Except String (List Embedding)) :
    List (List String) → Except String (List Embedding)
  | [] => .ok []
  | b :: bs =>
    match f b with
    | .error e => .error e
    | .ok es =>
      match runBatches f bs with
      | .error e => .error e
      | .ok rest => .ok (es ++ rest)

/-- `DocumentProcessor._generate_embeddings_batch`. -/
def generate_embeddings_batch (f : List String → Except String (List Embedding))
    (chunks : List String) : Except String (List Embedding) :=
  runBatches f (batched100 chunks)

/-- The vector list built by `_store_vectors` (lines 842-857):
`id = f"{document_id}_chunk{idx}"`, metadata text capped at 1000 characters. -/
def mkVectors (docId : String) (chunks : List String)
    (embeddings : List Embedding) : List (String × Embedding × Nat × String) :=
  (List.zip chunks embeddings).enum.map
    (fun p => (docId ++ "_chunk" ++ toString p.1, p.2.2, p.1, p.2.1.take 1000))

/-- The upsert loop of `_store_vectors` (lines 859-870), in batches of 100. -/
def runUpserts (up : List (String × Embedding × Nat × String) → Except String Unit) :
    List (List (String × Embedding × Nat × String)) → Except String Unit
  | [] => .ok ()
  | b :: bs =>
    match up b with
    | .error e => .error e
    | .ok _ => runUpserts up bs

/-- `DocumentProcessor._store_vectors` (lines 816-870): raise on a
chunk/embedding count mismatch, otherwise upsert the vectors in batches. -/
def store_vectors (env : PipeEnv) (docId : String) (chunks : List String)
    (embeddings : List Embedding) : Except String Unit :=
  if chunks.length ≠ embeddings.length then
    .error ("Chunk count (" ++ toString chunks.length ++
      ") doesn\x27t match embedding count (" ++ toString embeddings.length ++ ")")
  else
    runUpserts env.upsert (batched100 (mkVectors docId chunks embeddings))

/-- The dict returned by `process_document`. -/
structure PDResult where
  status : String
  document_id : String
  chunk_count : Option Nat := none
  error : Option String := none
  deriving Repr, DecidableEq

/-- The `except Exception` handler of `process_document` (lines 348-384):
write `processing_status = "failed"` with the full error message, broadcast,
best-effort-delete the temp file, and return a `"failed"` dict. -/
def pdFail (docId : String) (e : String) (meta : List MetaRec) :
    List MetaRec × Bool × PDResult :=
  (metaUpdateFirst docId
      (fun r => { r with
          processing_status := "failed"
          error_message := some e })
      meta,
    false,
    { status := "failed", document_id := docId, error := some e })

/-- `DocumentProcessor.process_document` (lines 191-384): the end-to-end
pipeline over the metadata collection and the temp file (`Bool`: the file
still exists).  Every raise inside the `try` body lands in `pdFail`; the
progress broadcasts go to the events manager and are modelled separately. -/
def process_document (env : PipeEnv) (docId : String) (meta0 : List MetaRec)
    (_file0 : Bool) : List MetaRec × Bool × PDResult :=
  let m1 := metaUpdateFirst docId
    (fun r => { r with
        processing_status := "processing"
        processing_step := some "extracting_text"
        processing_progress := some 0 }) meta0
  match env.extract with
  | .error e => pdFail docId e m1
  | .ok text =>
    if text = "" ∨ (pyStrip text).length < 10 then
      pdFail docId "No text content extracted from document" m1
    else
      let m2 := metaUpdateFirst docId
        (fun r => { r with
            processing_step := some "chunking"
            processing_progress := some 30 }) m1
      let chunks := chunkText env.tok text 500 50
      let m3 := metaUpdateFirst docId
        (fun r => { r with
            processing_step := some "generating_embeddings"
            processing_progress := some 50 }) m2
      if chunks = [] then
        pdFail docId "No chunks created from document text" m3
      else
        match generate_embeddings_batch env.embed chunks with
        | .error e => pdFail docId e m3
        | .ok embeddings =>
          let m4 := metaUpdateFirst docId
            (fun r => { r with
                processing_step := some "storing_vectors"
                processing_progress := some 80 }) m3
          match store_vectors env docId chunks embeddings with
          | .error e => pdFail docId e m4
          | .ok _ =>
            let m5 := metaUpdateFirst docId
              (fun r => { r with
                  processing_status := "completed"
                  chunk_count := some chunks.length }) m4
            (m5, false,
              { status := "success"
                document_id := docId
                chunk_count := some chunks.length })

/-! ## Queue processor (`upload_queue_service.py`, `_process_queue`) -/

/-- How the awaited `processor.process_document(...)` call in
`_process_queue` (line 188) terminates: it either completes normally
(returning its result dict) or the await raises an exception with the given
message, landing in the `except Exception` handler of lines 197-216. -/
inductive PipelineOutcome
  | completes
  | raises (msg : String)

/-- The combined durable state the processor touches: the `upload_queue`
collection and the `document_metadata` collection. -/
structure World where
  queue : List QueueItem
  meta : List MetaRec
  deriving Repr, DecidableEq

/-- The `DocumentMetadataModel(...)` record created by `_process_queue`
(lines 152-165) when it begins work on a queue item:
`processing_status = "processing"`, no chunk count, no error. -/
def mkProcessingMeta (it : QueueItem) (now : Int) : MetaRec :=
  { document_id := it.document_id
    processing_status := "processing"
    upload_date := now
    chunk_count := none
    error_message := none
    deleted := false }

/-- One iteration of the `while True` loop of `_process_queue`
(lines 124-218): look up the lowest-position pending item (sleep when none),
remove it from the queue, insert its metadata record, invoke the pipeline,
and on a raised exception mark the document failed with the error message
truncated to 500 characters (`str(e)[:500]`).  Returns the new state and the
item handed to the pipeline, if any. -/
def process_queue_step (w : World) (env : PipeEnv) (outcome : PipelineOutcome)
    (now : Int) : World × Option QueueItem :=
  match find_next_pending w.queue with
  | none => (w, none)
  | some it =>
    let q1 := (remove_from_queue it.queue_id w.queue).1
    let m1 := w.meta ++ [mkProcessingMeta it now]
    let m2 :=
      match outcome with
      | .completes => (process_document env it.document_id m1 true).1
      | .raises msg =>
        metaUpdateFirst it.document_id
          (fun r => { r with
              processing_status := "failed"
              error_message := some (pyTake msg 500) }) m1
    ({ queue := q1, meta := m2 }, some it)

/-! ## Progress broadcaster (`document_events.py`) -/

/-- A broadcast payload (`ProgressEvent`): the dict built by
`broadcast_progress` plus the timestamp that `broadcast_update` stamps. -/
structure Update where
  document_id : String
  processing_status : Option String := none
  processing_step : Option String := none
  processing_progress : Option Nat := none
  error_message : Option String := none
  chunk_count : Option Nat := none
  timestamp : Option Int := none
  deriving Repr, DecidableEq

/-- One subscriber channel (an `asyncio.Queue` held in `_listeners`):
`full` makes `put_nowait` raise `QueueFull`; `broken` makes it raise some
other exception, marking the channel dead. -/
structure Chan where
  cid : Nat
  msgs : List Update
  full : Bool := false
  broken : Bool := false
  deriving Repr, DecidableEq

/-- `_listeners`: the per-document subscriber sets. -/
abbrev EventsState := List (String × List Chan)

/-- `self._listeners.get(document_id, set())`. -/
def getListeners (d : String) (st : EventsState) : List Chan :=
  match st.find? (fun p => p.1 == d) with
  | some p => p.2
  | none => []

/-- Replacing the subscriber set of one document. -/
def setListeners (d : String) (ls : List Chan) : EventsState → EventsState
  | [] => [(d, ls)]
  | p :: ps => if p.1 = d then (d, ls) :: ps else p :: setListeners d ls ps

/-- The per-channel delivery of `broadcast_update` (lines 88-101):
`put_nowait` succeeds, raises `QueueFull` (warn and skip, channel kept), or
raises another error (channel added to `dead_queues` and discarded). -/
def deliverTo (u : Update) (c : Chan) : Option Chan :=
  if c.full then some c
  else if c.broken then none
  else some { c with msgs := c.msgs ++ [u] }

/-- `DocumentEventsManager.broadcast_update` (lines 67-101): with no
listeners the update is dropped and the state unchanged; otherwise the
update is stamped with a timestamp and delivered to every registered
channel, and dead channels are discarded. -/
def broadcast_update (now : Int) (docId : String) (u : Update)
    (st : EventsState) : EventsState :=
  match getListeners docId st with
  | [] => st
  | ls =>
    let u' := { u with timestamp := some now }
    setListeners docId (ls.filterMap (deliverTo u')) st

/-! ## Startup recovery (`main.py`, `recover_orphaned_processes`) -/

/-- The fixed explanatory message written by startup recovery (line 99). -/
def recoveryMessage : String :=
  "Processing interrupted by server restart. Please re-upload the document."

/-- The `update_many` filter (lines 92-95): status in
`{processing, uploading}` and `upload_date` older than `now - 30 minutes`. -/
def isOrphan (now : Int) (r : MetaRec) : Bool :=
  (r.processing_status == "processing" || r.processing_status == "uploading")
    && decide (r.upload_date < now - 1800)

/-- The `update_many` write: every match forced to `failed` with the fixed
message; everything else untouched. -/
def recover_orphaned (now : Int) (m : List MetaRec) : List MetaRec :=
  m.map (fun r =>
    if isOrphan now r then
      { r with processing_status := "failed", error_message := some recoveryMessage }
    else r)

/-- `recover_orphaned_processes` (lines 72-115) at world level: the queue is
never touched; a storage-layer error (`dbError`) is caught by the
`except Exception` of line 112, leaving the state unchanged. -/
def recover_orphaned_processes (now : Int) (dbError : Option String)
    (w : World) : World :=
  match dbError with
  | some _ => w
  | none => { w with meta := recover_orphaned now w.meta }

/-- The startup sequence of `lifespan` (lines 40-50): recovery runs first and
the queue processor is started unconditionally afterwards (`true` in the
second component). -/
def app_startup (now : Int) (dbError : Option String) (w : World) :
    World × Bool :=
  (recover_orphaned_processes now dbError w, true)

/-! ## Admin removal (`endpoints/queue.py`, `remove_from_queue`) -/

/-- The `DELETE /queue/{queue_id}` endpoint (lines 148-209): look the item
up; for a `pending` or `processing` item delete the associated metadata
record (tolerant of it not existing), then remove the item from the queue.
Other statuses and missing items are rejected with an HTTP error, leaving
the state unchanged. -/
def admin_remove_from_queue (qid : String) (w : World) : World :=
  match get_queue_item qid w.queue with
  | none => w
  | some it =>
    if it.status = "pending" ∨ it.status = "processing" then
      { queue := (remove_from_queue qid w.queue).1
        meta := metaDeleteFirst it.document_id w.meta }
    else w

/-! ## Reachable lifecycle states -/

/-- The states reachable through the upload/process/remove lifecycle.
`upload` is the `POST /documents/upload` admission path
(`endpoints/documents.py` lines 95-126): `document_id = str(uuid.uuid4())`
is fresh — it collides with no existing queue entry or metadata record —
and only a queue entry is created.  `step` is one queue-processor loop
iteration, `adminRemove` the administrative removal endpoint, `recover` the
startup recovery pass. -/
inductive Reachable : World → Prop
  | init : Reachable ⟨[], []⟩
  | upload (w : World) (d : String) :
      Reachable w →
      d ∉ w.queue.map QueueItem.document_id →
      d ∉ w.meta.map MetaRec.document_id →
      Reachable { w with queue := (add_to_queue d w.queue).1 }
  | step (w : World) (env : PipeEnv) (outcome : PipelineOutcome) (now : Int) :
      Reachable w → Reachable (process_queue_step w env outcome now).1
  | adminRemove (w : World) (qid : String) :
      Reachable w → Reachable (admin_remove_from_queue qid w)
  | recover (w : World) (now : Int) (dbError : Option String) :
      Reachable w → Reachable (recover_orphaned_processes now dbError w)

/-! ## Interleaved enqueues (claim C9) -/

/-- The two database round trips of `add_to_queue` (lines 40-60) as separate
atomic actions: `read` captures `next_position` from the current collection,
`insert` writes the item with the captured position.  Nothing in the code
serializes the two with respect to a concurrent call. -/
inductive EnqEvent
  | readA
  | readB
  | insertA
  | insertB

/-- State of two in-flight `add_to_queue` calls over the shared collection. -/
structure EnqState where
  queue : List QueueItem
  capturedA : Option Nat := none
  capturedB : Option Nat := none
  deriving Repr, DecidableEq

/-- One scheduler step of the two concurrent enqueues. -/
def enqStep (docA docB : String) (s : EnqState) : EnqEvent → EnqState
  | .readA => { s with capturedA := some (maxPosition s.queue + 1) }
  | .readB => { s with capturedB := some (maxPosition s.queue + 1) }
  | .insertA =>
    match s.capturedA with
    | some p => { s with queue := s.queue ++ [mkQueueItem docA p] }
    | none => s
  | .insertB =>
    match s.capturedB with
    | some p => { s with queue := s.queue ++ [mkQueueItem docB p] }
    | none => s

/-- A schedule of the two concurrent enqueues run from a starting state. -/
def runEnqSchedule (docA docB : String) (evs : List EnqEvent) (s : EnqState) :
    EnqState :=
  evs.foldl (enqStep docA docB) s

/-! ## Concrete instances used in witnesses and counterexamples -/

/-- A concrete token counter: one token per character plus one.  It satisfies
the additivity law for space-joined sentences
(`tokLen1 (join c) = Σ tokLen1` over the sentences) that abstracts the
external tiktoken encoder. -/
def tokLen1 : String → Nat := fun s => s.length + 1

/-- A text whose single sentence counts 522 tokens under `tokLen1`:
520 copies of `a` followed by a period. -/
def bigTextC5 : String := String.mk (List.replicate 520 'a' ++ ['.'])

/-- A pipeline environment whose external calls all succeed, used to
instantiate hypotheses at concrete inputs. -/
def pipeEnvOk (x : Except String String) : PipeEnv :=
  { tok := tokLen1
    extract := x
    embed := fun cs => .ok (cs.map (fun _ => [0]))
    upsert := fun _ => .ok () }

/-- A world with one pending queued document and empty metadata. -/
def worldW : World := { queue := [mkQueueItem "doc1" 1], meta := [] }

/-- Metadata records for the recovery witness: one stale `processing` record
and one recent one. -/
def staleRecW : MetaRec :=
  { document_id := "f", processing_status := "processing", upload_date := 0 }

/-- The recent `processing` record of the recovery witness. -/
def freshRecW : MetaRec :=
  { document_id := "g", processing_status := "processing", upload_date := 3000 }

/-- Subscriber channels for the broadcaster witness: healthy, full, broken. -/
def chanOkW : Chan := { cid := 0, msgs := [] }

/-- A full channel (`put_nowait` raises `QueueFull`). -/
def chanFullW : Chan := { cid := 1, msgs := [], full := true }

/-- A broken channel (`put_nowait` raises a non-`QueueFull` error). -/
def chanBrokenW : Chan := { cid := 2, msgs := [], broken := true }

/-- A broadcaster state with the three channels subscribed to `"d"`. -/
def eventsW : EventsState := [("d", [chanOkW, chanFullW, chanBrokenW])]

/-- The update broadcast in the broadcaster witness. -/
def updateW : Update :=
  { document_id := "d", processing_status := some "processing" }

/-- Well-formedness of the lifecycle state, carried through the reachability
induction: queue ids have their derived `"queue_" + document_id` form, queue
document ids are unique (uploads use fresh UUIDs), and no document is both
queued and in metadata. -/
def WorldWF (w : World) : Prop :=
  (∀ it ∈ w.queue, it.queue_id = "queue_" ++ it.document_id)
  ∧ (w.queue.map QueueItem.document_id).Nodup
  ∧ ∀ d, d ∈ w.queue.map QueueItem.document_id →
      d ∉ w.meta.map MetaRec.document_id

/-! # Theorems -/

/-! ## Sorting lemmas for the queue collection -/

theorem insertByPos_perm (x : QueueItem) (l : List QueueItem) :
    List.Perm (insertByPos x l) (x :: l) := by
  induction l with
  | nil => simp [insertByPos]
  | cons y ys ih =>
    by_cases h : x.position ≤ y.position
    · simp [insertByPos, h]
    · simp only [insertByPos, if_neg h]
      exact (ih.cons y).trans (List.Perm.swap x y ys)

theorem sortByPosition_perm (l : List QueueItem) :
    List.Perm (sortByPosition l) l := by
  induction l with
  | nil => simp [sortByPosition]
  | cons a t ih =>
    have : sortByPosition (a :: t) = insertByPos a (sortByPosition t) := rfl
    rw [this]
    exact (insertByPos_perm a (sortByPosition t)).trans (ih.cons a)

theorem insertByPos_pairwise (x : QueueItem) (l : List QueueItem)
    (h : l.Pairwise (fun a b => a.position ≤ b.position)) :
    (insertByPos x l).Pairwise (fun a b => a.position ≤ b.position) := by
  induction l with
  | nil => simp [insertByPos]
  | cons y ys ih =>
    rcases List.pairwise_cons.mp h with ⟨hy, hys⟩
    by_cases hxy : x.position ≤ y.position
    · simp only [insertByPos, if_pos hxy]
      refine List.pairwise_cons.mpr ⟨?_, h⟩
      intro z hz
      rcases List.mem_cons.mp hz with rfl | hz
      · exact hxy
      · exact hxy.trans (hy z hz)
    · simp only [insertByPos, if_neg hxy]
      refine List.pairwise_cons.mpr ⟨?_, ih hys⟩
      intro z hz
      have hz' : z ∈ x :: ys := (insertByPos_perm x ys).mem_iff.mp hz
      rcases List.mem_cons.mp hz' with rfl | hz'
      · exact Nat.le_of_not_le hxy
      · exact hy z hz'

theorem sortByPosition_pairwise (l : List QueueItem) :
    (sortByPosition l).Pairwise (fun a b => a.position ≤ b.position) := by
  induction l with
  | nil => simp [sortByPosition]
  | cons a t ih => exact insertByPos_pairwise a (sortByPosition t) ih

theorem find?_pending_min (l : List QueueItem)
    (hp : l.Pairwise (fun a b => a.position ≤ b.position)) (x : QueueItem)
    (hf : l.find? (fun it => it.status == "pending") = some x) :
    ∀ y ∈ l, y.status = "pending" → x.position ≤ y.position := by
  induction l with
  | nil => simp at hf
  | cons a t ih =>
    rcases List.pairwise_cons.mp hp with ⟨ha, ht⟩
    by_cases hpa : a.status = "pending"
    · rw [List.find?_cons_of_pos _ (by simp [hpa])] at hf
      cases hf
      intro y hy _
      rcases List.mem_cons.mp hy with rfl | hy
      · exact Nat.le_refl _
      · exact ha y hy
    · rw [List.find?_cons_of_neg _ (by simp [hpa])] at hf
      intro y hy hpend
      rcases List.mem_cons.mp hy with rfl | hy
      · exact absurd hpend hpa
      · exact ih ht hf y hy hpend

/-- C1. The queue processor dequeues the lowest-position pending item: any
item returned by the `find_one({"status": "pending"}, sort=position)` lookup
of `_process_queue` is a pending member of the queue whose position is at
most that of every other pending item, so documents are handed to the
pipeline in FIFO position order relative to the currently-pending items. -/
theorem dequeue_selects_lowest_pending (q : List QueueItem) (x : QueueItem)
    (h : find_next_pending q = some x) :
    x ∈ q ∧ x.status = "pending" ∧
      ∀ y ∈ q, y.status = "pending" → x.position ≤ y.position := by
  have hmem : x ∈ sortByPosition q := List.mem_of_find?_eq_some h
  have hx : x.status = "pending" := by
    have := List.find?_some h
    simpa using this
  refine ⟨(sortByPosition_perm q).mem_iff.mp hmem, hx, ?_⟩
  intro y hy hpend
  exact find?_pending_min (sortByPosition q) (sortByPosition_pairwise q) x h y
    ((sortByPosition_perm q).mem_iff.mpr hy) hpend

/-- Witness for C1 at a concrete queue: with items at positions 2 and 1 the
lookup returns the position-1 item, and the theorem applies. -/
theorem dequeue_selects_lowest_pending_witness :
    mkQueueItem "a" 1 ∈ [mkQueueItem "b" 2, mkQueueItem "a" 1] ∧
      (mkQueueItem "a" 1).status = "pending" ∧
      ∀ y ∈ [mkQueueItem "b" 2, mkQueueItem "a" 1], y.status = "pending" →
        (mkQueueItem "a" 1).position ≤ y.position :=
  dequeue_selects_lowest_pending [mkQueueItem "b" 2, mkQueueItem "a" 1]
    (mkQueueItem "a" 1) (by decide)

/-! ## Dense-positions invariant (claim C3) -/

theorem maxPosition_eq_foldr (q : List QueueItem) :
    maxPosition q = (q.map QueueItem.position).foldr max 0 := by
  induction q with
  | nil => rfl
  | cons a t ih =>
    have h1 : maxPosition (a :: t) = max a.position (maxPosition t) := rfl
    rw [h1, ih]
    simp [List.map_cons]

theorem foldr_max_range' (s : Nat) :
    ∀ n, (List.range' s n).foldr max 0 = if n = 0 then 0 else s + n - 1 := by
  intro n
  induction n generalizing s with
  | zero => simp
  | succ m ih =>
    rw [List.range'_succ]
    simp only [List.foldr_cons, ih (s + 1)]
    rcases Nat.eq_zero_or_pos m with rfl | hm
    · simp
    · have h1 : m ≠ 0 := Nat.pos_iff_ne_zero.mp hm
      simp only [if_neg h1, if_neg (Nat.succ_ne_zero m)]
      omega

theorem maxPosition_of_dense (q : List QueueItem)
    (h : q.map QueueItem.position = List.range' 1 q.length) :
    maxPosition q = q.length := by
  rw [maxPosition_eq_foldr, h, foldr_max_range']
  rcases Nat.eq_zero_or_pos q.length with h0 | h0
  · simp [h0]
  · rw [if_neg (Nat.pos_iff_ne_zero.mp h0)]; omega

theorem dense_pairwise_le (q : List QueueItem)
    (h : q.map QueueItem.position = List.range' 1 q.length) :
    q.Pairwise (fun a b => a.position ≤ b.position) := by
  have hlt : (q.map QueueItem.position).Pairwise (· < ·) := by
    rw [h]; exact List.pairwise_lt_range' 1 q.length
  have := (List.pairwise_map.mp hlt)
  exact this.imp Nat.le_of_lt

theorem insertByPos_front (a : QueueItem) (t : List QueueItem)
    (h : ∀ y ∈ t.head?, a.position ≤ y.position) :
    insertByPos a t = a :: t := by
  cases t with
  | nil => rfl
  | cons y ys => exact if_pos (h y rfl)

theorem sortByPosition_of_sorted (q : List QueueItem)
    (h : q.Pairwise (fun a b => a.position ≤ b.position)) :
    sortByPosition q = q := by
  induction q with
  | nil => rfl
  | cons a t ih =>
    rcases List.pairwise_cons.mp h with ⟨ha, ht⟩
    have : sortByPosition (a :: t) = insertByPos a (sortByPosition t) := rfl
    rw [this, ih ht]
    refine insertByPos_front a t ?_
    intro y hy
    cases t with
    | nil => simp at hy
    | cons z zs =>
      simp only [List.head?_cons, Option.mem_def, Option.some.injEq] at hy
      subst hy
      exact ha z (List.mem_cons_self z zs)

theorem eraseFirstQ_sublist (qid : String) (q : List QueueItem) :
    List.Sublist (eraseFirstQ qid q) q := by
  induction q with
  | nil => simp [eraseFirstQ]
  | cons x xs ih =>
    by_cases h : x.queue_id = qid
    · simp only [eraseFirstQ, if_pos h]
      exact List.sublist_cons_self x xs
    · simp only [eraseFirstQ, if_neg h]
      exact ih.cons₂ x

theorem renumberFrom_map_position :
    ∀ (l : List QueueItem) (n : Nat),
      (renumberFrom l n).map QueueItem.position = List.range' n l.length := by
  intro l
  induction l with
  | nil => intro n; rfl
  | cons x xs ih =>
    intro n
    simp only [renumberFrom, List.map_cons, List.length_cons, List.range'_succ, ih (n + 1)]

theorem renumberFrom_map_docId :
    ∀ (l : List QueueItem) (n : Nat),
      (renumberFrom l n).map QueueItem.document_id = l.map QueueItem.document_id := by
  intro l
  induction l with
  | nil => intro n; rfl
  | cons x xs ih => intro n; simp [renumberFrom, ih (n + 1)]

theorem dense_add_to_queue (d : String) (q : List QueueItem)
    (h : q.map QueueItem.position = List.range' 1 q.length) :
    ((add_to_queue d q).1).map QueueItem.position =
      List.range' 1 ((add_to_queue d q).1).length := by
  simp only [add_to_queue, List.map_append, List.length_append, List.map_cons,
    List.map_nil, List.length_cons, List.length_nil]
  rw [h, maxPosition_of_dense q h]
  have : List.range' 1 (q.length + (0 + 1)) = List.range' 1 q.length ++ [1 + q.length] := by
    rw [Nat.zero_add, List.range'_concat]
    simp
  rw [this]
  simp [mkQueueItem, Nat.add_comm]

theorem queueId_inj {a b : String} (h : "queue_" ++ a = "queue_" ++ b) :
    a = b := by
  have hd : ("queue_" ++ a).data = ("queue_" ++ b).data := congrArg String.data h
  rw [String.data_append, String.data_append] at hd
  have := List.append_cancel_left hd
  cases a with
  | mk da =>
    cases b with
    | mk db => exact congrArg String.mk (by simpa using this)

theorem updFirstQ_map_docId (qid : String) (p : Nat) :
    ∀ l : List QueueItem,
      (updFirstQ qid p l).map QueueItem.document_id =
        l.map QueueItem.document_id := by
  intro l
  induction l with
  | nil => rfl
  | cons z zs ih =>
    by_cases hz : z.queue_id = qid
    · simp [updFirstQ, if_pos hz]
    · simp [updFirstQ, if_neg hz, ih]

theorem updFirstQ_append_not_mem (qid : String) (p : Nat) :
    ∀ (l₁ l₂ : List QueueItem), qid ∉ l₁.map QueueItem.queue_id →
      updFirstQ qid p (l₁ ++ l₂) = l₁ ++ updFirstQ qid p l₂ := by
  intro l₁
  induction l₁ with
  | nil => intro l₂ _; rfl
  | cons x xs ih =>
    intro l₂ h
    have hx : ¬ x.queue_id = qid := by
      intro he
      exact h (List.mem_cons.mpr (Or.inl he.symm))
    simp only [List.cons_append, updFirstQ, if_neg hx, List.append_eq]
    rw [ih l₂ (fun hm => h (List.mem_cons.mpr (Or.inr hm)))]

theorem mem_updFirstQ_fields (qid : String) (p : Nat) :
    ∀ (l : List QueueItem) (x : QueueItem), x ∈ updFirstQ qid p l →
      ∃ y ∈ l, x.queue_id = y.queue_id ∧ x.document_id = y.document_id
        ∧ x.status = y.status := by
  intro l
  induction l with
  | nil => intro x hx; simp [updFirstQ] at hx
  | cons z zs ih =>
    intro x hx
    by_cases hz : z.queue_id = qid
    · simp only [updFirstQ, if_pos hz] at hx
      rcases List.mem_cons.mp hx with rfl | hx
      · exact ⟨z, List.mem_cons_self z zs, rfl, rfl, rfl⟩
      · exact ⟨x, List.mem_cons_of_mem z hx, rfl, rfl, rfl⟩
    · simp only [updFirstQ, if_neg hz] at hx
      rcases List.mem_cons.mp hx with rfl | hx
      · exact ⟨x, List.mem_cons_self x zs, rfl, rfl, rfl⟩
      · obtain ⟨y, hy, h1, h2, h3⟩ := ih x hx
        exact ⟨y, List.mem_cons_of_mem z hy, h1, h2, h3⟩

theorem reorderLoop_map_docId :
    ∀ (s : List QueueItem) (idx : Nat) (coll : List QueueItem),
      (reorderLoop s idx coll).map QueueItem.document_id =
        coll.map QueueItem.document_id := by
  intro s
  induction s with
  | nil => intro idx coll; rfl
  | cons item rest ih =>
    intro idx coll
    simp only [reorderLoop]
    rw [ih (idx + 1) _]
    by_cases hp : item.position ≠ idx
    · rw [if_pos hp, updFirstQ_map_docId]
    · rw [if_neg hp]

theorem mem_reorderLoop_fields :
    ∀ (s : List QueueItem) (idx : Nat) (coll : List QueueItem) (x : QueueItem),
      x ∈ reorderLoop s idx coll →
      ∃ y ∈ coll, x.queue_id = y.queue_id ∧ x.document_id = y.document_id
        ∧ x.status = y.status := by
  intro s
  induction s with
  | nil => intro idx coll x hx; exact ⟨x, hx, rfl, rfl, rfl⟩
  | cons item rest ih =>
    intro idx coll x hx
    simp only [reorderLoop] at hx
    obtain ⟨y, hy, h1, h2, h3⟩ := ih (idx + 1) _ x hx
    by_cases hp : item.position ≠ idx
    · rw [if_pos hp] at hy
      obtain ⟨z, hz, g1, g2, g3⟩ := mem_updFirstQ_fields item.queue_id idx coll y hy
      exact ⟨z, hz, h1.trans g1, h2.trans g2, h3.trans g3⟩
    · rw [if_neg hp] at hy
      exact ⟨y, hy, h1, h2, h3⟩

theorem reorder_map_docId (q : List QueueItem) :
    (reorder_queue q).map QueueItem.document_id =
      q.map QueueItem.document_id := by
  rw [reorder_queue, reorderLoop_map_docId]

/-- Under pairwise-distinct queue ids the keyed `update_one` loop of
`_reorder_queue` coincides with positional renumbering: each update hits
exactly the snapshot item it was issued for. -/
theorem reorderLoop_renumber :
    ∀ (s done : List QueueItem) (idx : Nat),
      (((done ++ s).map QueueItem.queue_id).Nodup) →
      reorderLoop s idx (done ++ s) = done ++ renumberFrom s idx := by
  intro s
  induction s with
  | nil => intro done idx _; simp [reorderLoop, renumberFrom]
  | cons item rest ih =>
    intro done idx hnd
    have hmid : item.queue_id ∉ done.map QueueItem.queue_id := by
      rw [List.map_append, List.map_cons] at hnd
      rcases List.nodup_append.mp hnd with ⟨_, _, hdisj⟩
      intro hin
      exact hdisj hin (List.mem_cons_self _ _)
    have hcoll : (if item.position ≠ idx
          then updFirstQ item.queue_id idx (done ++ item :: rest)
          else done ++ item :: rest) =
        done ++ { item with position := idx } :: rest := by
      by_cases hp : item.position = idx
      · rw [if_neg (not_not_intro hp), ← hp]
      · rw [if_pos hp,
          updFirstQ_append_not_mem item.queue_id idx done (item :: rest) hmid]
        congr 1
        simp [updFirstQ]
    simp only [reorderLoop]
    rw [hcoll]
    have h2 : done ++ { item with position := idx } :: rest =
        (done ++ [{ item with position := idx }]) ++ rest := by
      simp
    have hnd2 : (((done ++ [{ item with position := idx }]) ++ rest).map
        QueueItem.queue_id).Nodup := by
      have heq : ((done ++ [{ item with position := idx }]) ++ rest).map
            QueueItem.queue_id =
          (done ++ item :: rest).map QueueItem.queue_id := by
        simp
      rw [heq]
      exact hnd
    rw [h2]
    exact (ih _ (idx + 1) hnd2).trans (by simp [renumberFrom])

theorem reorder_queue_eq_renumber (q : List QueueItem)
    (hsort : sortByPosition q = q)
    (hnd : (q.map QueueItem.queue_id).Nodup) :
    reorder_queue q = renumberFrom q 1 := by
  rw [reorder_queue, hsort]
  have := reorderLoop_renumber q [] 1 (by simpa using hnd)
  simpa using this

theorem queueIds_nodup_of_wf (q : List QueueItem)
    (hfmt : ∀ it ∈ q, it.queue_id = "queue_" ++ it.document_id)
    (hnd : (q.map QueueItem.document_id).Nodup) :
    (q.map QueueItem.queue_id).Nodup := by
  have h1 : q.map QueueItem.queue_id =
      (q.map QueueItem.document_id).map (fun d => "queue_" ++ d) := by
    rw [List.map_map]
    exact List.map_congr_left hfmt
  rw [h1]
  exact hnd.map (fun a b hab => queueId_inj hab)

theorem mem_remove_fields (qid : String) (q : List QueueItem) (x : QueueItem)
    (hx : x ∈ (remove_from_queue qid q).1) :
    ∃ y ∈ q, x.queue_id = y.queue_id ∧ x.document_id = y.document_id
      ∧ x.status = y.status := by
  unfold remove_from_queue at hx
  by_cases hc : q.any (fun it => it.queue_id = qid)
  · rw [if_pos hc] at hx
    obtain ⟨y, hy, h1, h2, h3⟩ :=
      mem_reorderLoop_fields (sortByPosition (eraseFirstQ qid q)) 1
        (eraseFirstQ qid q) x hx
    exact ⟨y, (eraseFirstQ_sublist qid q).mem hy, h1, h2, h3⟩
  · rw [if_neg hc] at hx
    exact ⟨x, hx, rfl, rfl, rfl⟩

theorem remove_docIds_sublist (qid : String) (q : List QueueItem) :
    ∃ l, List.Sublist l (q.map QueueItem.document_id) ∧
      List.Perm (((remove_from_queue qid q).1).map QueueItem.document_id) l := by
  unfold remove_from_queue
  by_cases hc : q.any (fun it => it.queue_id = qid)
  · rw [if_pos hc]
    refine ⟨(eraseFirstQ qid q).map QueueItem.document_id,
      (eraseFirstQ_sublist qid q).map QueueItem.document_id, ?_⟩
    rw [reorder_map_docId]
  · rw [if_neg hc]
    exact ⟨q.map QueueItem.document_id, List.Sublist.refl _, List.Perm.refl _⟩

theorem dense_remove_from_queue (qid : String) (q : List QueueItem)
    (h : q.map QueueItem.position = List.range' 1 q.length)
    (hfmt : ∀ it ∈ q, it.queue_id = "queue_" ++ it.document_id)
    (hnd : (q.map QueueItem.document_id).Nodup) :
    ((remove_from_queue qid q).1).map QueueItem.position =
      List.range' 1 ((remove_from_queue qid q).1).length := by
  unfold remove_from_queue
  by_cases hc : q.any (fun it => it.queue_id = qid)
  · simp only [if_pos hc]
    have hsub := eraseFirstQ_sublist qid q
    have hsorted : (eraseFirstQ qid q).Pairwise (fun a b => a.position ≤ b.position) :=
      (dense_pairwise_le q h).sublist hsub
    have hqnd : ((eraseFirstQ qid q).map QueueItem.queue_id).Nodup :=
      ((queueIds_nodup_of_wf q hfmt hnd).sublist
        (hsub.map QueueItem.queue_id))
    have heq := reorder_queue_eq_renumber (eraseFirstQ qid q)
      (sortByPosition_of_sorted _ hsorted) hqnd
    rw [heq, renumberFrom_map_position]
    congr 1
    have hlen : (renumberFrom (eraseFirstQ qid q) 1).length =
        (eraseFirstQ qid q).length := by
      have := congrArg List.length (renumberFrom_map_position (eraseFirstQ qid q) 1)
      simpa using this
    rw [hlen]
  · simp only [if_neg hc]
    exact h

theorem dense_runOps_aux :
    ∀ (ops : List QueueOp) (q : List QueueItem),
      q.map QueueItem.position = List.range' 1 q.length →
      (∀ it ∈ q, it.queue_id = "queue_" ++ it.document_id) →
      (q.map QueueItem.document_id).Nodup →
      (enqueuedIds ops).Nodup →
      (∀ d, d ∈ enqueuedIds ops → d ∉ q.map QueueItem.document_id) →
      (ops.foldl applyOp q).map QueueItem.position =
        List.range' 1 (ops.foldl applyOp q).length := by
  intro ops
  induction ops with
  | nil => intro q h _ _ _ _; simpa using h
  | cons op rest ih =>
    intro q hdense hfmt hnd hEnq hfresh
    cases op with
    | enqueue d =>
      have hEnqCons : enqueuedIds (QueueOp.enqueue d :: rest) =
          d :: enqueuedIds rest := rfl
      rw [hEnqCons] at hEnq
      have hdq : d ∉ q.map QueueItem.document_id :=
        hfresh d (by rw [hEnqCons]; exact List.mem_cons_self d _)
      simp only [List.foldl_cons]
      have hq2 : applyOp q (QueueOp.enqueue d) =
          q ++ [mkQueueItem d (maxPosition q + 1)] := rfl
      rw [hq2]
      apply ih
      · exact dense_add_to_queue d q hdense
      · intro it hit
        rcases List.mem_append.mp hit with h1 | h1
        · exact hfmt it h1
        · rcases List.mem_singleton.mp h1 with rfl
          rfl
      · rw [List.map_append]
        refine hnd.append (List.nodup_singleton _) ?_
        intro a ha hb
        simp only [List.map_cons, List.map_nil, List.mem_singleton,
          mkQueueItem] at hb
        subst hb
        exact hdq ha
      · exact (List.nodup_cons.mp hEnq).2
      · intro d2 hd2
        rw [List.map_append]
        intro hmem
        rcases List.mem_append.mp hmem with h1 | h1
        · exact hfresh d2
            (by rw [hEnqCons]; exact List.mem_cons_of_mem d hd2) h1
        · simp only [List.map_cons, List.map_nil, List.mem_singleton,
            mkQueueItem] at h1
          subst h1
          exact (List.nodup_cons.mp hEnq).1 hd2
    | remove qid =>
      have hEnqR : enqueuedIds (QueueOp.remove qid :: rest) =
          enqueuedIds rest := rfl
      rw [hEnqR] at hEnq
      obtain ⟨l, hsub, hperm⟩ := remove_docIds_sublist qid q
      simp only [List.foldl_cons]
      have hq2 : applyOp q (QueueOp.remove qid) = (remove_from_queue qid q).1 := rfl
      rw [hq2]
      apply ih
      · exact dense_remove_from_queue qid q hdense hfmt hnd
      · intro x hx
        obtain ⟨y, hy, h1, h2, _⟩ := mem_remove_fields qid q x hx
        rw [h1, h2]
        exact hfmt y hy
      · exact hperm.nodup_iff.mpr (hnd.sublist hsub)
      · exact hEnq
      · intro d2 hd2 hmem
        exact hfresh d2 (by rw [hEnqR]; exact hd2)
          (hsub.subset (hperm.mem_iff.mp hmem))

/-- C3 (counterexample).  The claim as stated is false on the code: the
renumbering pass issues `update_one` keyed by `queue_id`, and `upload_queue`
has no unique index, so after enqueuing the same document id twice (two
records with `queue_id = "queue_d"`) and removing the item ahead of them,
both renumbering updates hit the first `"queue_d"` record and the surviving
positions are `[2, 3]` — not the dense range `1..2`. -/
theorem queue_positions_dense_counterexample :
    (runOps [QueueOp.enqueue "x", QueueOp.enqueue "d", QueueOp.enqueue "d",
        QueueOp.remove "queue_x"]).map QueueItem.position = [2, 3]
    ∧ (runOps [QueueOp.enqueue "x", QueueOp.enqueue "d", QueueOp.enqueue "d",
        QueueOp.remove "queue_x"]).map QueueItem.position ≠
      List.range' 1 (runOps [QueueOp.enqueue "x", QueueOp.enqueue "d",
        QueueOp.enqueue "d", QueueOp.remove "queue_x"]).length :=
  ⟨by decide, by decide⟩

/-- C3 (amended).  After every sequence of sequentially applied enqueue and
remove operations in which the enqueued document ids are pairwise distinct —
which upload admission guarantees by generating a fresh UUID per upload —
the remaining items carry positions forming the contiguous 1-indexed range
`1..N` with no gaps or duplicates; every successful removal renumbers
without permuting the surviving items (their document-id sequence is a
sublist of the previous one), and an enqueue appends at position `max + 1`,
preserving the existing order.  Without the distinctness restriction the
keyed renumbering `update_one` can hit the same record twice and leave a
gap (see the counterexample). -/
theorem queue_positions_dense (ops : List QueueOp)
    (hops : (enqueuedIds ops).Nodup) :
    (runOps ops).map QueueItem.position = List.range' 1 (runOps ops).length
    ∧ (∀ qid, List.Sublist
        (((remove_from_queue qid (runOps ops)).1).map QueueItem.document_id)
        ((runOps ops).map QueueItem.document_id))
    ∧ ∀ d, ((add_to_queue d (runOps ops)).1).map QueueItem.document_id =
        (runOps ops).map QueueItem.document_id ++ [d] := by
  refine ⟨dense_runOps_aux ops [] (by simp) (by simp) (by simp) hops
    (by simp), ?_, ?_⟩
  · intro qid
    unfold remove_from_queue
    by_cases hc : (runOps ops).any (fun it => it.queue_id = qid)
    · rw [if_pos hc]
      rw [reorder_map_docId]
      exact (eraseFirstQ_sublist qid (runOps ops)).map QueueItem.document_id
    · rw [if_neg hc]
  · intro d
    simp [add_to_queue, mkQueueItem]

/-- Witness for C3 (amended) at a concrete three-operation sequence with
distinct enqueued ids. -/
theorem queue_positions_dense_witness :
    (runOps [QueueOp.enqueue "a", QueueOp.enqueue "b",
        QueueOp.remove "queue_a"]).map QueueItem.position =
      List.range' 1 (runOps [QueueOp.enqueue "a", QueueOp.enqueue "b",
        QueueOp.remove "queue_a"]).length
    ∧ (∀ qid, List.Sublist
        (((remove_from_queue qid (runOps [QueueOp.enqueue "a",
            QueueOp.enqueue "b", QueueOp.remove "queue_a"])).1).map
          QueueItem.document_id)
        ((runOps [QueueOp.enqueue "a", QueueOp.enqueue "b",
            QueueOp.remove "queue_a"]).map QueueItem.document_id))
    ∧ ∀ d, ((add_to_queue d (runOps [QueueOp.enqueue "a", QueueOp.enqueue "b",
          QueueOp.remove "queue_a"])).1).map QueueItem.document_id =
        (runOps [QueueOp.enqueue "a", QueueOp.enqueue "b",
          QueueOp.remove "queue_a"]).map QueueItem.document_id ++ [d] :=
  queue_positions_dense [QueueOp.enqueue "a", QueueOp.enqueue "b",
    QueueOp.remove "queue_a"] (by decide)

/-! ## Chunker lemmas (claim C5) -/

theorem takeOverlapRev_tokens (tok : String → Nat) (ov : Nat) :
    ∀ (l : List String) (t : Nat),
      (takeOverlapRev tok ov l t).2 = t + sentSum tok (takeOverlapRev tok ov l t).1 := by
  intro l
  induction l with
  | nil => intro t; simp [takeOverlapRev, sentSum]
  | cons s r ih =>
    intro t
    by_cases h : t + tok s ≤ ov
    · simp only [takeOverlapRev, if_pos h]
      rw [ih (t + tok s)]
      simp [sentSum]
      omega
    · simp [takeOverlapRev, if_neg h, sentSum]

theorem takeOverlapRev_le (tok : String → Nat) (ov : Nat) :
    ∀ (l : List String) (t : Nat), t ≤ ov → (takeOverlapRev tok ov l t).2 ≤ ov := by
  intro l
  induction l with
  | nil => intro t ht; simpa [takeOverlapRev] using ht
  | cons s r ih =>
    intro t ht
    by_cases h : t + tok s ≤ ov
    · simp only [takeOverlapRev, if_pos h]
      exact ih (t + tok s) h
    · simpa [takeOverlapRev, if_neg h] using ht

theorem takeOverlapRev_of_prefix (tok : String → Nat) (ov : Nat) :
    ∀ (l : List String) (t : Nat),
      ∃ pfx, pfx <+: l ∧ (takeOverlapRev tok ov l t).1 = pfx.reverse := by
  intro l
  induction l with
  | nil => intro t; exact ⟨[], List.nil_prefix, rfl⟩
  | cons s r ih =>
    intro t
    by_cases h : t + tok s ≤ ov
    · obtain ⟨pfx, hp, he⟩ := ih (t + tok s)
      refine ⟨s :: pfx, ?_, ?_⟩
      · obtain ⟨u, hu⟩ := hp
        exact ⟨u, by rw [List.cons_append, hu]⟩
      · simp only [takeOverlapRev, if_pos h, he, List.reverse_cons]
    · exact ⟨[], List.nil_prefix, by simp [takeOverlapRev, if_neg h]⟩

theorem takeOverlapRev_all (tok : String → Nat) (ov : Nat) :
    ∀ (l : List String) (t : Nat), t + (l.map tok).sum ≤ ov →
      takeOverlapRev tok ov l t = (l.reverse, t + (l.map tok).sum) := by
  intro l
  induction l with
  | nil => intro t ht; simp [takeOverlapRev]
  | cons s r ih =>
    intro t ht
    simp only [List.map_cons, List.sum_cons] at ht
    have h1 : t + tok s ≤ ov := by omega
    have h2 : t + tok s + (r.map tok).sum ≤ ov := by omega
    simp only [takeOverlapRev, if_pos h1, ih (t + tok s) h2, List.reverse_cons]
    simp only [Prod.mk.injEq, List.map_cons, List.sum_cons]
    exact ⟨trivial, by omega⟩

theorem overlapOf_suffix (tok : String → Nat) (ov : Nat) (cur : List String) :
    (overlapOf tok ov cur).1 <:+ cur := by
  obtain ⟨pfx, hp, he⟩ := takeOverlapRev_of_prefix tok ov cur.reverse 0
  rw [overlapOf, he]
  obtain ⟨t, ht⟩ := hp
  refine ⟨t.reverse, ?_⟩
  have := congrArg List.reverse ht
  simpa [List.reverse_append] using this

theorem overlapOf_tokens_le (tok : String → Nat) (ov : Nat) (cur : List String) :
    (overlapOf tok ov cur).2 ≤ ov :=
  takeOverlapRev_le tok ov cur.reverse 0 (Nat.zero_le ov)

theorem overlapOf_sum (tok : String → Nat) (ov : Nat) (cur : List String) :
    sentSum tok (overlapOf tok ov cur).1 = (overlapOf tok ov cur).2 := by
  have := takeOverlapRev_tokens tok ov cur.reverse 0
  rw [overlapOf]
  omega

theorem overlapOf_ne_nil (tok : String → Nat) (ov : Nat) (cur : List String)
    (s : String) (hs : cur.getLast? = some s) (hfit : tok s ≤ ov) :
    (overlapOf tok ov cur).1 ≠ [] := by
  have hrev : cur.reverse.head? = some s := by
    rw [List.head?_reverse]; exact hs
  rw [overlapOf]
  cases hc : cur.reverse with
  | nil => rw [hc] at hrev; simp at hrev
  | cons a r =>
    rw [hc] at hrev
    simp only [List.head?_cons, Option.some.injEq] at hrev
    subst hrev
    simp only [takeOverlapRev, Nat.zero_add, if_pos hfit]
    simp

theorem overlapOf_small (tok : String → Nat) (ov : Nat) (cur : List String)
    (h : sentSum tok cur ≤ ov) : (overlapOf tok ov cur).1 = cur := by
  have hs : (0 : Nat) + (cur.reverse.map tok).sum ≤ ov := by
    rw [Nat.zero_add, List.map_reverse, List.sum_reverse]
    exact h
  rw [overlapOf, takeOverlapRev_all tok ov cur.reverse 0 hs]
  simp

theorem chunkLoop_chunks_ne_nil (tok : String → Nat) (cs ov : Nat) :
    ∀ (ss cur : List String) (t : Nat),
      ∀ c ∈ chunkLoop tok cs ov ss cur t, c ≠ [] := by
  intro ss
  induction ss with
  | nil =>
    intro cur t c hc
    simp only [chunkLoop] at hc
    by_cases h : cur.isEmpty
    · simp [h] at hc
    · simp only [if_neg h, List.mem_singleton] at hc
      subst hc
      simpa [List.isEmpty_iff] using h
  | cons s rest ih =>
    intro cur t c hc
    simp only [chunkLoop] at hc
    by_cases h : t + tok s > cs ∧ ¬ cur.isEmpty
    · rw [if_pos h] at hc
      rcases List.mem_cons.mp hc with rfl | hc
      · simpa [List.isEmpty_iff] using h.2
      · exact ih _ _ c hc
    · rw [if_neg h] at hc
      exact ih _ _ c hc

theorem chunkLoop_head_extends (tok : String → Nat) (cs ov : Nat) :
    ∀ (ss cur : List String) (t : Nat), cur ≠ [] →
      ∃ c rest, chunkLoop tok cs ov ss cur t = c :: rest ∧ cur <+: c := by
  intro ss
  induction ss with
  | nil =>
    intro cur t hcur
    refine ⟨cur, [], ?_, List.prefix_refl cur⟩
    simp [chunkLoop, List.isEmpty_iff, hcur]
  | cons s rest ih =>
    intro cur t hcur
    simp only [chunkLoop]
    by_cases h : t + tok s > cs ∧ ¬ cur.isEmpty
    · rw [if_pos h]
      exact ⟨cur, _, rfl, List.prefix_refl cur⟩
    · rw [if_neg h]
      obtain ⟨c, r, he, hp⟩ := ih (cur ++ [s]) (t + tok s) (by simp)
      refine ⟨c, r, he, ?_⟩
      exact (List.prefix_append cur [s]).trans hp

theorem chunkLoop_chain (tok : String → Nat) (cs ov : Nat) :
    ∀ (ss cur : List String) (t : Nat),
      List.Chain' (fun A B => (overlapOf tok ov A).1 <+: B)
        (chunkLoop tok cs ov ss cur t) := by
  intro ss
  induction ss with
  | nil =>
    intro cur t
    simp only [chunkLoop]
    split <;> simp
  | cons s rest ih =>
    intro cur t
    simp only [chunkLoop]
    by_cases h : t + tok s > cs ∧ ¬ cur.isEmpty
    · rw [if_pos h]
      obtain ⟨c, r, he, hp⟩ :=
        chunkLoop_head_extends tok cs ov rest
          ((overlapOf tok ov cur).1 ++ [s]) ((overlapOf tok ov cur).2 + tok s)
          (by simp)
      rw [he]
      refine List.chain'_cons'.mpr ⟨?_, ?_⟩
      · intro y hy
        rw [List.head?_cons, Option.mem_def, Option.some.injEq] at hy
        subst hy
        exact (List.prefix_append (overlapOf tok ov cur).1 [s]).trans hp
      · rw [← he]
        exact ih _ _
    · rw [if_neg h]
      exact ih _ _

theorem chunkLoop_sum_le (tok : String → Nat) (cs ov M : Nat) :
    ∀ (ss cur : List String), (∀ s ∈ ss, tok s ≤ M) →
      sentSum tok cur ≤ max cs (ov + M) →
      ∀ c ∈ chunkLoop tok cs ov ss cur (sentSum tok cur),
        sentSum tok c ≤ max cs (ov + M) := by
  intro ss
  induction ss with
  | nil =>
    intro cur _ hcur c hc
    simp only [chunkLoop] at hc
    by_cases h : cur.isEmpty
    · simp [h] at hc
    · simp only [if_neg h, List.mem_singleton] at hc
      subst hc
      exact hcur
  | cons s rest ih =>
    intro cur hM hcur c hc
    have hsM : tok s ≤ M := hM s (List.mem_cons_self s rest)
    have hMrest : ∀ x ∈ rest, tok x ≤ M := fun x hx => hM x (List.mem_cons_of_mem s hx)
    simp only [chunkLoop] at hc
    by_cases h : sentSum tok cur + tok s > cs ∧ ¬ cur.isEmpty
    · rw [if_pos h] at hc
      rcases List.mem_cons.mp hc with rfl | hc
      · exact hcur
      · have hsum : (overlapOf tok ov cur).2 + tok s =
            sentSum tok ((overlapOf tok ov cur).1 ++ [s]) := by
          rw [← overlapOf_sum tok ov cur]
          simp [sentSum]
        rw [hsum] at hc
        refine ih _ hMrest ?_ c hc
        have h1 : sentSum tok ((overlapOf tok ov cur).1 ++ [s]) =
            (overlapOf tok ov cur).2 + tok s := hsum.symm
        rw [h1]
        have := overlapOf_tokens_le tok ov cur
        have : (overlapOf tok ov cur).2 + tok s ≤ ov + M := by omega
        omega
    · rw [if_neg h] at hc
      have hsum : sentSum tok cur + tok s = sentSum tok (cur ++ [s]) := by
        simp [sentSum]
      rw [hsum] at hc
      refine ih _ hMrest ?_ c hc
      rw [← hsum]
      rcases Decidable.not_and_iff_or_not.mp h with h1 | h1
      · have : sentSum tok cur + tok s ≤ cs := Nat.le_of_not_lt h1
        omega
      · have hcur0 : cur = [] := by
          rcases List.isEmpty_iff.mp (Decidable.not_not.mp h1) with h2
          exact h2
        subst hcur0
        simp only [sentSum, List.map_nil, List.sum_nil, Nat.zero_add]
        have : tok s ≤ ov + M := by omega
        omega

theorem chain'_filter_hop (tok : String → Nat) (ov : Nat)
    (kp : List String → Bool) :
    ∀ (L : List (List String)) (a : List String),
      (∀ y ∈ L.head?, (overlapOf tok ov a).1 <+: y) →
      List.Chain' (fun A B => (overlapOf tok ov A).1 <+: B) L →
      (∀ B ∈ L, kp B = false → (overlapOf tok ov B).1 = B) →
      ∀ y ∈ (L.filter kp).head?, (overlapOf tok ov a).1 <+: y := by
  intro L
  induction L with
  | nil => intro a _ _ _ y hy; simp at hy
  | cons c r ih =>
    intro a hhead hchain habs y hy
    by_cases hk : kp c
    · rw [List.filter_cons, if_pos hk] at hy
      rw [List.head?_cons, Option.mem_def, Option.some.injEq] at hy
      subst hy
      exact hhead c (by simp)
    · rw [List.filter_cons, if_neg hk] at hy
      rcases List.chain'_cons'.mp hchain with ⟨hc, hr⟩
      refine ih a ?_ hr (fun B hB hkB => habs B (List.mem_cons_of_mem c hB) hkB) y hy
      intro z hz
      have hPa : (overlapOf tok ov a).1 <+: c := hhead c (by simp)
      have hPc : (overlapOf tok ov c).1 <+: z := hc z hz
      have hcc : (overlapOf tok ov c).1 = c :=
        habs c (List.mem_cons_self c r) (Bool.eq_false_iff.mpr hk)
      rw [hcc] at hPc
      exact hPa.trans hPc

theorem chain'_filter_absorb (tok : String → Nat) (ov : Nat)
    (kp : List String → Bool) :
    ∀ (L : List (List String)),
      List.Chain' (fun A B => (overlapOf tok ov A).1 <+: B) L →
      (∀ B ∈ L, kp B = false → (overlapOf tok ov B).1 = B) →
      List.Chain' (fun A B => (overlapOf tok ov A).1 <+: B) (L.filter kp) := by
  intro L
  induction L with
  | nil => intro _ _; simp
  | cons c r ih =>
    intro hchain habs
    rcases List.chain'_cons'.mp hchain with ⟨hc, hr⟩
    by_cases hk : kp c
    · rw [List.filter_cons, if_pos hk]
      refine List.chain'_cons'.mpr ⟨?_, ?_⟩
      · exact chain'_filter_hop tok ov kp r c hc hr
          (fun B hB hkB => habs B (List.mem_cons_of_mem c hB) hkB)
      · exact ih hr (fun B hB hkB => habs B (List.mem_cons_of_mem c hB) hkB)
    · rw [List.filter_cons, if_neg hk]
      exact ih hr (fun B hB hkB => habs B (List.mem_cons_of_mem c hB) hkB)

theorem filter_map_comm {α β : Type} (j : α → β) (p : β → Bool) :
    ∀ l : List α, (l.map j).filter p = (l.filter (fun x => p (j x))).map j := by
  intro l
  induction l with
  | nil => rfl
  | cons a t ih =>
    simp only [List.map_cons, List.filter_cons]
    by_cases h : p (j a)
    · rw [if_pos h, if_pos h, List.map_cons, ih]
    · rw [if_neg h, if_neg h, ih]

theorem le_map_foldr_max (f : String → Nat) :
    ∀ (l : List String) (x : String), x ∈ l → f x ≤ (l.map f).foldr max 0 := by
  intro l
  induction l with
  | nil => intro x hx; simp at hx
  | cons a t ih =>
    intro x hx
    simp only [List.map_cons, List.foldr_cons]
    rcases List.mem_cons.mp hx with rfl | hx
    · exact Nat.le_max_left _ _
    · exact Nat.le_trans (ih x hx) (Nat.le_max_right _ _)

theorem suffix_drop_eq {α : Type} (l A : List α) (h : l <:+ A) :
    A.drop (A.length - l.length) = l := by
  obtain ⟨t, rfl⟩ := h
  have : (t ++ l).length - l.length = t.length := by
    simp [List.length_append]
  rw [this, List.drop_left]

theorem prefix_take_eq {α : Type} (l B : List α) (h : l <+: B) :
    B.take l.length = l := by
  obtain ⟨t, rfl⟩ := h
  exact List.take_left l t

/-- C5 (amended).  For the chunk list produced by `_chunk_text` with
`chunk_size = 500` and `overlap = 50` (with the external token counter
abstracted as any `tok` that is additive over space-joined sentence lists):
(1) the produced chunks are exactly the space-joins of the sentence-level
chunks that survive the 10-token filter; (2) no chunk exceeds
`max 500 (50 + L)` tokens, where `L` is the largest single-sentence token
count of the text — so a chunk overruns the 500 budget only when a single
sentence longer than the remaining budget forces it; and (3) every chunk
except the first begins with at least one trailing sentence of its
predecessor whenever the predecessor's trailing sentence fits within the
50-token overlap budget. -/
theorem chunker_amended (tok : String → Nat) (text : String)
    (hTok : ∀ l : List String, l ≠ [] →
      tok (String.intercalate " " l) = sentSum tok l) :
    chunkText tok text 500 50 =
      (sentChunksFiltered tok text 500 50).map (fun c => String.intercalate " " c)
    ∧ (∀ chunk ∈ chunkText tok text 500 50,
        tok chunk ≤ max 500 (50 + maxSentTok tok text))
    ∧ List.Chain'
        (fun A B => ∀ hA : A ≠ [], tok (A.getLast hA) ≤ 50 →
          ∃ k, 0 < k ∧ k ≤ A.length ∧ B.take k = A.drop (A.length - k))
        (sentChunksFiltered tok text 500 50) := by
  have hEq : chunkText tok text 500 50 =
      (sentChunksFiltered tok text 500 50).map (fun c => String.intercalate " " c) := by
    rw [chunkText, sentChunksFiltered]
    exact filter_map_comm (fun c => String.intercalate " " c)
      (fun c => decide (tok c > 10)) (sentChunks tok text 500 50)
  have hne : ∀ c ∈ sentChunks tok text 500 50, c ≠ [] :=
    fun c hc => chunkLoop_chunks_ne_nil tok 500 50 (splitSentences text) [] 0 c hc
  refine ⟨hEq, ?_, ?_⟩
  · intro chunk hmem
    rw [hEq] at hmem
    obtain ⟨c, hcf, rfl⟩ := List.mem_map.mp hmem
    have hcs : c ∈ sentChunks tok text 500 50 := List.mem_of_mem_filter hcf
    have hcne : c ≠ [] := hne c hcs
    rw [hTok c hcne]
    have hM : ∀ s ∈ splitSentences text, tok s ≤ maxSentTok tok text :=
      fun s hs => le_map_foldr_max tok (splitSentences text) s hs
    have h0 : sentSum tok ([] : List String) ≤ max 500 (50 + maxSentTok tok text) := by
      simp [sentSum]
    exact chunkLoop_sum_le tok 500 50 (maxSentTok tok text)
      (splitSentences text) [] hM h0 c hcs
  · have habs : ∀ B ∈ sentChunks tok text 500 50,
        (decide (tok (String.intercalate " " B) > 10)) = false →
        (overlapOf tok 50 B).1 = B := by
      intro B hB hkB
      have h10 : ¬ tok (String.intercalate " " B) > 10 := of_decide_eq_false hkB
      have hBne : B ≠ [] := hne B hB
      have hsum : sentSum tok B ≤ 50 := by
        rw [← hTok B hBne]
        omega
      exact overlapOf_small tok 50 B hsum
    have hchain := chain'_filter_absorb tok 50
      (fun c => decide (tok (String.intercalate " " c) > 10))
      (sentChunks tok text 500 50)
      (chunkLoop_chain tok 500 50 (splitSentences text) [] 0) habs
    refine hchain.imp ?_
    intro A B hP hA hlast
    have hlOpt : A.getLast? = some (A.getLast hA) := List.getLast?_eq_getLast A hA
    have hone : (overlapOf tok 50 A).1 ≠ [] :=
      overlapOf_ne_nil tok 50 A (A.getLast hA) hlOpt hlast
    refine ⟨(overlapOf tok 50 A).1.length, List.length_pos.mpr hone,
      (overlapOf_suffix tok 50 A).length_le, ?_⟩
    rw [prefix_take_eq _ _ hP, suffix_drop_eq _ _ (overlapOf_suffix tok 50 A)]

theorem intercalate_go_length :
    ∀ (as : List String) (acc : String),
      (String.intercalate.go acc " " as).length =
        acc.length + (as.map (fun x => x.length + 1)).sum := by
  intro as
  induction as with
  | nil => intro acc; simp [String.intercalate.go]
  | cons a t ih =>
    intro acc
    rw [String.intercalate.go, ih (acc ++ " " ++ a)]
    rw [String.length_append, String.length_append]
    have h1 : (" " : String).length = 1 := rfl
    rw [h1, List.map_cons, List.sum_cons]
    omega

theorem tokLen1_join (l : List String) (hl : l ≠ []) :
    tokLen1 (String.intercalate " " l) = sentSum tokLen1 l := by
  cases l with
  | nil => exact absurd rfl hl
  | cons a t =>
    rw [String.intercalate]
    simp only [tokLen1, sentSum, List.map_cons, List.sum_cons]
    rw [intercalate_go_length t a]
    have hmap : List.map tokLen1 t = List.map (fun x => x.length + 1) t := rfl
    rw [hmap]
    omega

set_option maxRecDepth 20000 in
/-- C5 (counterexample).  The claim as stated is false on the code: chunking
`bigTextC5` (one 521-character sentence, 522 tokens under the additive token
counter `tokLen1`) with `chunk_size = 500, overlap = 50` yields a chunk of
522 tokens, exceeding the 500-token budget — `_chunk_text` never splits
inside a sentence, so a single over-budget sentence becomes an over-budget
chunk. -/
theorem chunker_budget_counterexample :
    ∃ c ∈ chunkText tokLen1 bigTextC5 500 50, 500 < tokLen1 c := by
  decide

/-- Witness for C5 (amended) at the concrete additive token counter
`tokLen1` and the text `bigTextC5`. -/
theorem chunker_amended_witness :
    chunkText tokLen1 bigTextC5 500 50 =
      (sentChunksFiltered tokLen1 bigTextC5 500 50).map
        (fun c => String.intercalate " " c)
    ∧ (∀ chunk ∈ chunkText tokLen1 bigTextC5 500 50,
        tokLen1 chunk ≤ max 500 (50 + maxSentTok tokLen1 bigTextC5))
    ∧ List.Chain'
        (fun A B => ∀ hA : A ≠ [], tokLen1 (A.getLast hA) ≤ 50 →
          ∃ k, 0 < k ∧ k ≤ A.length ∧ B.take k = A.drop (A.length - k))
        (sentChunksFiltered tokLen1 bigTextC5 500 50) :=
  chunker_amended tokLen1 bigTextC5 tokLen1_join

/-! ## Pipeline lemmas (claims C6 and C10) -/

theorem metaFind_updateFirst (d : String) (f : MetaRec → MetaRec)
    (hf : ∀ r, (f r).document_id = r.document_id) :
    ∀ m : List MetaRec, metaFind d (metaUpdateFirst d f m) = (metaFind d m).map f := by
  intro m
  induction m with
  | nil => rfl
  | cons r rs ih =>
    by_cases h : r.document_id = d
    · simp only [metaUpdateFirst, if_pos h, metaFind]
      rw [List.find?_cons_of_pos _ (by simp [hf r, h]),
        List.find?_cons_of_pos _ (by simp [h])]
      rfl
    · simp only [metaUpdateFirst, if_neg h, metaFind]
      rw [List.find?_cons_of_neg _ (by simp [h]),
        List.find?_cons_of_neg _ (by simp [h])]
      exact ih

theorem metaFind_append_some (d : String) (rec : MetaRec)
    (hrec : rec.document_id = d) :
    ∀ m : List MetaRec, ∃ r0, metaFind d (m ++ [rec]) = some r0 := by
  intro m
  induction m with
  | nil =>
    refine ⟨rec, ?_⟩
    simp [metaFind, List.find?_cons_of_pos, hrec]
  | cons r rs ih =>
    by_cases h : r.document_id = d
    · exact ⟨r, by simp [metaFind, List.find?_cons_of_pos, h]⟩
    · obtain ⟨r0, hr0⟩ := ih
      refine ⟨r0, ?_⟩
      simp only [metaFind] at hr0 ⊢
      rw [List.cons_append, List.find?_cons_of_neg _ (by simp [h])]
      exact hr0

theorem metaFind_chain (docId : String) (m : List MetaRec)
    (f : MetaRec → MetaRec) (hf : ∀ r, (f r).document_id = r.document_id)
    (r0 : MetaRec) (h : metaFind docId m = some r0) :
    metaFind docId (metaUpdateFirst docId f m) = some (f r0) := by
  rw [metaFind_updateFirst docId f hf m, h]
  rfl

theorem pdFail_spec (docId e : String) (m : List MetaRec) :
    (pdFail docId e m).2.2.status = "failed"
    ∧ (pdFail docId e m).2.1 = false
    ∧ (pdFail docId e m).2.2.error = some e
    ∧ ∀ r0, metaFind docId m = some r0 →
        ∃ r2, metaFind docId (pdFail docId e m).1 = some r2 ∧
          r2.processing_status = "failed" ∧ r2.error_message = some e := by
  refine ⟨rfl, rfl, rfl, ?_⟩
  intro r0 h0
  exact ⟨_, metaFind_chain docId m
    (fun r => { r with processing_status := "failed", error_message := some e })
    (fun r => rfl) r0 h0, rfl, rfl⟩

/-- C6.  `process_document` records a failure rather than an empty success on
degenerate content: when the extracted text strips to fewer than 10
characters it fails with "No text content extracted from document", and when
a non-degenerate extraction chunks to zero chunks it fails with "No chunks
created from document text"; in both cases the metadata record is marked
`failed`. -/
theorem process_document_degenerate (env : PipeEnv) (docId : String)
    (meta : List MetaRec) (file : Bool) (text : String)
    (hx : env.extract = .ok text) :
    ((pyStrip text).length < 10 →
      (process_document env docId meta file).2.2.status = "failed"
      ∧ (process_document env docId meta file).2.2.error =
          some "No text content extracted from document"
      ∧ ∀ r0, metaFind docId meta = some r0 →
          ∃ r2, metaFind docId (process_document env docId meta file).1 = some r2
            ∧ r2.processing_status = "failed")
    ∧ (10 ≤ (pyStrip text).length →
        chunkText env.tok text 500 50 = [] →
        (process_document env docId meta file).2.2.status = "failed"
        ∧ (process_document env docId meta file).2.2.error =
            some "No chunks created from document text"
        ∧ ∀ r0, metaFind docId meta = some r0 →
            ∃ r2, metaFind docId (process_document env docId meta file).1 = some r2
              ∧ r2.processing_status = "failed") := by
  constructor
  · intro h10
    have hcond : text = "" ∨ (pyStrip text).length < 10 := Or.inr h10
    have hpd : process_document env docId meta file =
        pdFail docId "No text content extracted from document"
          (metaUpdateFirst docId
            (fun r => { r with
                processing_status := "processing"
                processing_step := some "extracting_text"
                processing_progress := some 0 }) meta) := by
      simp only [process_document, hx]
      rw [if_pos hcond]
    rw [hpd]
    refine ⟨(pdFail_spec _ _ _).1, (pdFail_spec _ _ _).2.2.1, ?_⟩
    intro r0 h0
    have h1 := metaFind_chain docId meta
      (fun r => { r with
          processing_status := "processing"
          processing_step := some "extracting_text"
          processing_progress := some 0 }) (fun r => rfl) r0 h0
    obtain ⟨r2, hr2, hst, _⟩ := (pdFail_spec docId _ _).2.2.2 _ h1
    exact ⟨r2, hr2, hst⟩
  · intro h10 hchunks
    have hne : ¬ (text = "" ∨ (pyStrip text).length < 10) := by
      rintro (rfl | hlt)
      · have h0 : (pyStrip "").length = 0 := rfl
        omega
      · omega
    have hpd : process_document env docId meta file =
        pdFail docId "No chunks created from document text"
          (metaUpdateFirst docId
            (fun r => { r with
                processing_step := some "generating_embeddings"
                processing_progress := some 50 })
            (metaUpdateFirst docId
              (fun r => { r with
                  processing_step := some "chunking"
                  processing_progress := some 30 })
              (metaUpdateFirst docId
                (fun r => { r with
                    processing_status := "processing"
                    processing_step := some "extracting_text"
                    processing_progress := some 0 }) meta))) := by
      simp only [process_document, hx]
      rw [if_neg hne, if_pos hchunks]
    rw [hpd]
    refine ⟨(pdFail_spec _ _ _).1, (pdFail_spec _ _ _).2.2.1, ?_⟩
    intro r0 h0
    have h1 := metaFind_chain docId meta
      (fun r => { r with
          processing_status := "processing"
          processing_step := some "extracting_text"
          processing_progress := some 0 }) (fun r => rfl) r0 h0
    have h2 := metaFind_chain docId _
      (fun r => { r with
          processing_step := some "chunking"
          processing_progress := some 30 }) (fun r => rfl) _ h1
    have h3 := metaFind_chain docId _
      (fun r => { r with
          processing_step := some "generating_embeddings"
          processing_progress := some 50 }) (fun r => rfl) _ h2
    obtain ⟨r2, hr2, hst, _⟩ := (pdFail_spec docId _ _).2.2.2 _ h3
    exact ⟨r2, hr2, hst⟩

/-- Witness for C6: with text `"hi"` (2 characters after stripping) the
pipeline reports a failed result. -/
theorem process_document_degenerate_witness :
    (process_document (pipeEnvOk (.ok "hi")) "d"
      [{ document_id := "d", processing_status := "processing" }] true).2.2.status
      = "failed" :=
  ((process_document_degenerate (pipeEnvOk (.ok "hi")) "d"
    [{ document_id := "d", processing_status := "processing" }] true "hi" rfl).1
    (by decide)).1

theorem pdFail_total_spec (docId e : String) (m meta : List MetaRec)
    (hchain : ∀ r0, metaFind docId meta = some r0 →
      ∃ r1, metaFind docId m = some r1) :
    ((pdFail docId e m).2.2.status = "success"
      ∨ (pdFail docId e m).2.2.status = "failed")
    ∧ ((pdFail docId e m).2.2.status = "failed" →
        (pdFail docId e m).2.1 = false
        ∧ ∃ e2, (pdFail docId e m).2.2.error = some e2
          ∧ ∀ r0, metaFind docId meta = some r0 →
              ∃ r2, metaFind docId (pdFail docId e m).1 = some r2
                ∧ r2.processing_status = "failed"
                ∧ r2.error_message = some e2) := by
  refine ⟨Or.inr rfl, ?_⟩
  intro _
  refine ⟨rfl, e, rfl, ?_⟩
  intro r0 h0
  obtain ⟨r1, hr1⟩ := hchain r0 h0
  exact (pdFail_spec docId e m).2.2.2 r1 hr1

/-- C10.  `process_document` never propagates a failure to its caller: on
every input the returned dict has status `"success"` or `"failed"`; a failed
run deletes the temp file, reports the error in the dict, and writes
`processing_status = "failed"` with the full untruncated message to the
metadata record; a successful run deletes the temp file and reports the
chunk count of the extracted text. -/
theorem process_document_total (env : PipeEnv) (docId : String)
    (meta : List MetaRec) (file : Bool) :
    ((process_document env docId meta file).2.2.status = "success"
      ∨ (process_document env docId meta file).2.2.status = "failed")
    ∧ ((process_document env docId meta file).2.2.status = "failed" →
        (process_document env docId meta file).2.1 = false
        ∧ ∃ e, (process_document env docId meta file).2.2.error = some e
          ∧ ∀ r0, metaFind docId meta = some r0 →
              ∃ r2, metaFind docId (process_document env docId meta file).1 = some r2
                ∧ r2.processing_status = "failed" ∧ r2.error_message = some e)
    ∧ ((process_document env docId meta file).2.2.status = "success" →
        (process_document env docId meta file).2.1 = false
        ∧ ∃ text, env.extract = .ok text
          ∧ (process_document env docId meta file).2.2.chunk_count =
              some (chunkText env.tok text 500 50).length) := by
  have hstep : ∀ (f : MetaRec → MetaRec), (∀ r, (f r).document_id = r.document_id) →
      ∀ m : List MetaRec, (∃ r, metaFind docId m = some r) →
        ∃ r, metaFind docId (metaUpdateFirst docId f m) = some r := by
    intro f hf m hm
    obtain ⟨r, hr⟩ := hm
    exact ⟨f r, metaFind_chain docId m f hf r hr⟩
  have hstep0 := hstep
    (fun r => { r with
        processing_status := "processing"
        processing_step := some "extracting_text"
        processing_progress := some 0 }) (fun r => rfl)
  have hstep1 := hstep
    (fun r => { r with
        processing_step := some "chunking"
        processing_progress := some 30 }) (fun r => rfl)
  have hstep2 := hstep
    (fun r => { r with
        processing_step := some "generating_embeddings"
        processing_progress := some 50 }) (fun r => rfl)
  have hstep3 := hstep
    (fun r => { r with
        processing_step := some "storing_vectors"
        processing_progress := some 80 }) (fun r => rfl)
  cases hx : env.extract with
  | error e =>
    simp only [process_document, hx]
    refine ⟨?_, ?_, ?_⟩
    · exact Or.inr rfl
    · refine (pdFail_total_spec docId e _ meta ?_).2
      intro r0 h0
      exact hstep0 meta ⟨r0, h0⟩
    · intro h
      exact absurd (show ("failed" : String) = "success" from h) (by decide)
  | ok text =>
    by_cases hcond : text = "" ∨ (pyStrip text).length < 10
    · simp only [process_document, hx, if_pos hcond]
      refine ⟨Or.inr rfl, ?_, ?_⟩
      · refine (pdFail_total_spec docId _ _ meta ?_).2
        intro r0 h0
        exact hstep0 meta ⟨r0, h0⟩
      · intro h
        exact absurd (show ("failed" : String) = "success" from h) (by decide)
    · by_cases hchunks : chunkText env.tok text 500 50 = []
      · simp only [process_document, hx, if_neg hcond, if_pos hchunks]
        refine ⟨Or.inr rfl, ?_, ?_⟩
        · refine (pdFail_total_spec docId _ _ meta ?_).2
          intro r0 h0
          exact hstep2 _ (hstep1 _ (hstep0 meta ⟨r0, h0⟩))
        · intro h
          exact absurd (show ("failed" : String) = "success" from h) (by decide)
      · cases hemb : generate_embeddings_batch env.embed (chunkText env.tok text 500 50) with
        | error e =>
          simp only [process_document, hx, if_neg hcond, if_neg hchunks, hemb]
          refine ⟨Or.inr rfl, ?_, ?_⟩
          · refine (pdFail_total_spec docId e _ meta ?_).2
            intro r0 h0
            exact hstep2 _ (hstep1 _ (hstep0 meta ⟨r0, h0⟩))
          · intro h
            exact absurd (show ("failed" : String) = "success" from h) (by decide)
        | ok embeddings =>
          cases hsv : store_vectors env docId (chunkText env.tok text 500 50) embeddings with
          | error e =>
            simp only [process_document, hx, if_neg hcond, if_neg hchunks, hemb, hsv]
            refine ⟨Or.inr rfl, ?_, ?_⟩
            · refine (pdFail_total_spec docId e _ meta ?_).2
              intro r0 h0
              exact hstep3 _ (hstep2 _ (hstep1 _ (hstep0 meta ⟨r0, h0⟩)))
            · intro h
              exact absurd (show ("failed" : String) = "success" from h) (by decide)
          | ok u =>
            simp only [process_document, hx, if_neg hcond, if_neg hchunks, hemb, hsv]
            refine ⟨Or.inl trivial, ?_, ?_⟩
            · intro h
              exact absurd (show ("success" : String) = "failed" from h) (by decide)
            · intro _
              refine ⟨trivial, text, ?_, ?_⟩ <;> simp [hx]

/-- Witness for C10: with a failing extraction the returned dict has status
`"success"` or `"failed"` (here: `"failed"`). -/
theorem process_document_total_witness :
    (process_document (pipeEnvOk (.error "boom")) "d"
        [{ document_id := "d", processing_status := "processing" }] true).2.2.status
        = "success"
    ∨ (process_document (pipeEnvOk (.error "boom")) "d"
        [{ document_id := "d", processing_status := "processing" }] true).2.2.status
        = "failed" :=
  (process_document_total (pipeEnvOk (.error "boom")) "d"
    [{ document_id := "d", processing_status := "processing" }] true).1

/-! ## Queue processor failure handling (claim C2) -/

theorem mem_eraseFirstQ_of_ne (qid : String) (y : QueueItem) :
    ∀ q : List QueueItem, y ∈ q → y.queue_id ≠ qid → y ∈ eraseFirstQ qid q := by
  intro q
  induction q with
  | nil => intro h; simp at h
  | cons x xs ih =>
    intro hy hne
    by_cases hx : x.queue_id = qid
    · simp only [eraseFirstQ, if_pos hx]
      rcases List.mem_cons.mp hy with rfl | hy
      · exact absurd hx hne
      · exact hy
    · simp only [eraseFirstQ, if_neg hx]
      rcases List.mem_cons.mp hy with rfl | hy
      · exact List.mem_cons_self y (eraseFirstQ qid xs)
      · exact List.mem_cons_of_mem x (ih hy hne)

theorem reorder_docIds_perm (l : List QueueItem) :
    List.Perm ((reorder_queue l).map QueueItem.document_id)
      (l.map QueueItem.document_id) := by
  rw [reorder_map_docId]

theorem mem_docIds_remove_of_ne (qid : String) (y : QueueItem)
    (q : List QueueItem) (hy : y ∈ q) (hne : y.queue_id ≠ qid) :
    y.document_id ∈ ((remove_from_queue qid q).1).map QueueItem.document_id := by
  unfold remove_from_queue
  by_cases hc : q.any (fun it => it.queue_id = qid)
  · simp only [if_pos hc]
    refine (reorder_docIds_perm (eraseFirstQ qid q)).mem_iff.mpr ?_
    exact List.mem_map_of_mem QueueItem.document_id (mem_eraseFirstQ_of_ne qid y q hy hne)
  · simp only [if_neg hc]
    exact List.mem_map_of_mem QueueItem.document_id hy

/-- C2.  When the pipeline invocation raises, the queue-processor loop
iteration hands exactly the dequeued item to the handler, writes
`processing_status = "failed"` with the error message truncated to at most
500 characters onto that document's metadata record, and leaves every other
queued document in the queue so the loop keeps processing them. -/
theorem processor_catches_pipeline_failure (w : World) (env : PipeEnv)
    (msg : String) (now : Int) (it : QueueItem)
    (hfind : find_next_pending w.queue = some it) :
    (process_queue_step w env (.raises msg) now).2 = some it
    ∧ (∃ r2, metaFind it.document_id
          (process_queue_step w env (.raises msg) now).1.meta = some r2
        ∧ r2.processing_status = "failed"
        ∧ r2.error_message = some (pyTake msg 500)
        ∧ (pyTake msg 500).length ≤ 500)
    ∧ ∀ y ∈ w.queue, y.queue_id ≠ it.queue_id →
        y.document_id ∈
          ((process_queue_step w env (.raises msg) now).1.queue.map
            QueueItem.document_id) := by
  have hstep : process_queue_step w env (.raises msg) now =
      ({ queue := (remove_from_queue it.queue_id w.queue).1
         meta := metaUpdateFirst it.document_id
           (fun r => { r with
               processing_status := "failed"
               error_message := some (pyTake msg 500) })
           (w.meta ++ [mkProcessingMeta it now]) }, some it) := by
    simp only [process_queue_step, hfind]
  rw [hstep]
  refine ⟨rfl, ?_, ?_⟩
  · obtain ⟨r0, hr0⟩ := metaFind_append_some it.document_id
      (mkProcessingMeta it now) rfl w.meta
    refine ⟨_, metaFind_chain it.document_id _
      (fun r => { r with
          processing_status := "failed"
          error_message := some (pyTake msg 500) })
      (fun r => rfl) r0 hr0, rfl, rfl, ?_⟩
    show (String.mk (msg.toList.take 500)).length ≤ 500
    have h1 : (String.mk (msg.toList.take 500)).length = (msg.toList.take 500).length := rfl
    rw [h1, List.length_take]
    exact Nat.min_le_left _ _
  · intro y hy hne
    exact mem_docIds_remove_of_ne it.queue_id y w.queue hy hne

/-! ## Lifecycle mutual-exclusion invariant (claim C4) -/

theorem not_mem_docIds_eraseFirst (d : String) :
    ∀ q : List QueueItem,
      (∀ it ∈ q, it.queue_id = "queue_" ++ it.document_id) →
      (q.map QueueItem.document_id).Nodup →
      d ∉ (eraseFirstQ ("queue_" ++ d) q).map QueueItem.document_id := by
  intro q
  induction q with
  | nil => intro _ _; simp [eraseFirstQ]
  | cons x xs ih =>
    intro hfmt hnd
    have hfx := hfmt x (List.mem_cons_self x xs)
    rw [List.map_cons] at hnd
    rcases List.nodup_cons.mp hnd with ⟨hx_not, hnd2⟩
    by_cases hx : x.queue_id = "queue_" ++ d
    · simp only [eraseFirstQ, if_pos hx]
      have hxd : x.document_id = d := queueId_inj (hfx.symm.trans hx)
      rw [← hxd]
      exact hx_not
    · simp only [eraseFirstQ, if_neg hx, List.map_cons]
      intro hmem
      rcases List.mem_cons.mp hmem with heq | hmem2
      · apply hx
        rw [hfx, heq]
      · exact ih (fun it hit => hfmt it (List.mem_cons_of_mem x hit)) hnd2 hmem2

theorem not_mem_docIds_remove (d : String) (q : List QueueItem)
    (hfmt : ∀ it ∈ q, it.queue_id = "queue_" ++ it.document_id)
    (hnd : (q.map QueueItem.document_id).Nodup) :
    d ∉ ((remove_from_queue ("queue_" ++ d) q).1).map QueueItem.document_id := by
  unfold remove_from_queue
  by_cases hc : q.any (fun it => it.queue_id = "queue_" ++ d)
  · rw [if_pos hc]
    intro hmem
    exact not_mem_docIds_eraseFirst d q hfmt hnd
      ((reorder_docIds_perm (eraseFirstQ ("queue_" ++ d) q)).mem_iff.mp hmem)
  · rw [if_neg hc]
    intro hmem
    obtain ⟨it, hit, hitd⟩ := List.mem_map.mp hmem
    apply hc
    rw [List.any_eq_true]
    refine ⟨it, hit, ?_⟩
    simp [hfmt it hit, hitd]

theorem metaDeleteFirst_sublist (d : String) :
    ∀ m : List MetaRec, List.Sublist (metaDeleteFirst d m) m := by
  intro m
  induction m with
  | nil => simp [metaDeleteFirst]
  | cons r rs ih =>
    by_cases h : r.document_id = d
    · simp only [metaDeleteFirst, if_pos h]
      exact List.sublist_cons_self r rs
    · simp only [metaDeleteFirst, if_neg h]
      exact ih.cons₂ r

theorem metaUpdateFirst_map_docId (d : String) (f : MetaRec → MetaRec)
    (hf : ∀ r, (f r).document_id = r.document_id) :
    ∀ m : List MetaRec,
      (metaUpdateFirst d f m).map MetaRec.document_id =
        m.map MetaRec.document_id := by
  intro m
  induction m with
  | nil => rfl
  | cons r rs ih =>
    by_cases h : r.document_id = d
    · simp only [metaUpdateFirst, if_pos h, List.map_cons, hf r]
    · simp only [metaUpdateFirst, if_neg h, List.map_cons, ih]

theorem pdFail_map_docId (docId e : String) (m : List MetaRec) :
    ((pdFail docId e m).1).map MetaRec.document_id = m.map MetaRec.document_id :=
  metaUpdateFirst_map_docId docId
    (fun r => { r with processing_status := "failed", error_message := some e })
    (fun r => rfl) m

theorem map_docId_upd0 (d : String) (m : List MetaRec) :
    (metaUpdateFirst d
      (fun r => { r with
          processing_status := "processing"
          processing_step := some "extracting_text"
          processing_progress := some 0 }) m).map MetaRec.document_id =
      m.map MetaRec.document_id :=
  metaUpdateFirst_map_docId d
    (fun r => { r with
        processing_status := "processing"
        processing_step := some "extracting_text"
        processing_progress := some 0 }) (fun r => rfl) m

theorem map_docId_upd1 (d : String) (m : List MetaRec) :
    (metaUpdateFirst d
      (fun r => { r with
          processing_step := some "chunking"
          processing_progress := some 30 }) m).map MetaRec.document_id =
      m.map MetaRec.document_id :=
  metaUpdateFirst_map_docId d
    (fun r => { r with
        processing_step := some "chunking"
        processing_progress := some 30 }) (fun r => rfl) m

theorem map_docId_upd2 (d : String) (m : List MetaRec) :
    (metaUpdateFirst d
      (fun r => { r with
          processing_step := some "generating_embeddings"
          processing_progress := some 50 }) m).map MetaRec.document_id =
      m.map MetaRec.document_id :=
  metaUpdateFirst_map_docId d
    (fun r => { r with
        processing_step := some "generating_embeddings"
        processing_progress := some 50 }) (fun r => rfl) m

theorem map_docId_upd3 (d : String) (m : List MetaRec) :
    (metaUpdateFirst d
      (fun r => { r with
          processing_step := some "storing_vectors"
          processing_progress := some 80 }) m).map MetaRec.document_id =
      m.map MetaRec.document_id :=
  metaUpdateFirst_map_docId d
    (fun r => { r with
        processing_step := some "storing_vectors"
        processing_progress := some 80 }) (fun r => rfl) m

theorem map_docId_upd5 (d : String) (n : Nat) (m : List MetaRec) :
    (metaUpdateFirst d
      (fun r => { r with
          processing_status := "completed"
          chunk_count := some n }) m).map MetaRec.document_id =
      m.map MetaRec.document_id :=
  metaUpdateFirst_map_docId d
    (fun r => { r with
        processing_status := "completed"
        chunk_count := some n }) (fun r => rfl) m

theorem process_document_map_docId (env : PipeEnv) (docId : String)
    (meta : List MetaRec) (file : Bool) :
    ((process_document env docId meta file).1).map MetaRec.document_id =
      meta.map MetaRec.document_id := by
  cases hx : env.extract with
  | error e =>
    simp only [process_document, hx]
    rw [pdFail_map_docId, map_docId_upd0]
  | ok text =>
    by_cases hcond : text = "" ∨ (pyStrip text).length < 10
    · simp only [process_document, hx, if_pos hcond]
      rw [pdFail_map_docId, map_docId_upd0]
    · by_cases hchunks : chunkText env.tok text 500 50 = []
      · simp only [process_document, hx, if_neg hcond, if_pos hchunks]
        rw [pdFail_map_docId, map_docId_upd2, map_docId_upd1, map_docId_upd0]
      · cases hemb : generate_embeddings_batch env.embed (chunkText env.tok text 500 50) with
        | error e =>
          simp only [process_document, hx, if_neg hcond, if_neg hchunks, hemb]
          rw [pdFail_map_docId, map_docId_upd2, map_docId_upd1, map_docId_upd0]
        | ok embeddings =>
          cases hsv : store_vectors env docId (chunkText env.tok text 500 50) embeddings with
          | error e =>
            simp only [process_document, hx, if_neg hcond, if_neg hchunks, hemb, hsv]
            rw [pdFail_map_docId, map_docId_upd3, map_docId_upd2, map_docId_upd1,
              map_docId_upd0]
          | ok u =>
            simp only [process_document, hx, if_neg hcond, if_neg hchunks, hemb, hsv]
            rw [map_docId_upd5, map_docId_upd3, map_docId_upd2, map_docId_upd1,
              map_docId_upd0]

theorem recover_orphaned_map_docId (now : Int) (m : List MetaRec) :
    (recover_orphaned now m).map MetaRec.document_id =
      m.map MetaRec.document_id := by
  rw [recover_orphaned, List.map_map]
  apply List.map_congr_left
  intro r hr
  by_cases h : isOrphan now r
  · simp [h]
  · simp [h]

theorem find_next_pending_mem (q : List QueueItem) (it : QueueItem)
    (h : find_next_pending q = some it) : it ∈ q :=
  (sortByPosition_perm q).mem_iff.mp (List.mem_of_find?_eq_some h)

theorem map_docId_updFail (d e : String) (m : List MetaRec) :
    (metaUpdateFirst d
      (fun r => { r with
          processing_status := "failed"
          error_message := some e }) m).map MetaRec.document_id =
      m.map MetaRec.document_id :=
  metaUpdateFirst_map_docId d
    (fun r => { r with
        processing_status := "failed"
        error_message := some e }) (fun r => rfl) m

theorem reachable_wf : ∀ w : World, Reachable w → WorldWF w := by
  intro w h
  induction h with
  | init => refine ⟨?_, ?_, ?_⟩ <;> simp
  | upload w d hr hq hm ih =>
    obtain ⟨hfmt, hnd, hdisj⟩ := ih
    refine ⟨?_, ?_, ?_⟩
    · intro it hit
      simp only [add_to_queue] at hit
      rcases List.mem_append.mp hit with h1 | h1
      · exact hfmt it h1
      · rcases List.mem_singleton.mp h1 with rfl
        rfl
    · show ((w.queue ++ [mkQueueItem d (maxPosition w.queue + 1)]).map
        QueueItem.document_id).Nodup
      rw [List.map_append]
      refine hnd.append (List.nodup_singleton _) ?_
      intro a ha hb
      simp only [List.map_cons, List.map_nil, List.mem_singleton, mkQueueItem] at hb
      subst hb
      exact hq ha
    · intro d' hd'
      show d' ∉ w.meta.map MetaRec.document_id
      have hd2 : d' ∈ (w.queue ++ [mkQueueItem d (maxPosition w.queue + 1)]).map
          QueueItem.document_id := hd'
      rw [List.map_append] at hd2
      rcases List.mem_append.mp hd2 with h1 | h1
      · exact hdisj d' h1
      · simp only [List.map_cons, List.map_nil, List.mem_singleton, mkQueueItem] at h1
        subst h1
        exact hm
  | step w env outcome now hr ih =>
    obtain ⟨hfmt, hnd, hdisj⟩ := ih
    cases hfind : find_next_pending w.queue with
    | none =>
      simp only [process_queue_step, hfind]
      exact ⟨hfmt, hnd, hdisj⟩
    | some it =>
      have hit : it ∈ w.queue := find_next_pending_mem w.queue it hfind
      have hqid : it.queue_id = "queue_" ++ it.document_id := hfmt it hit
      have hq1 : ∀ x ∈ (remove_from_queue it.queue_id w.queue).1,
          x.queue_id = "queue_" ++ x.document_id := by
        intro x hx
        obtain ⟨y, hy, h1, h2, _⟩ := mem_remove_fields it.queue_id w.queue x hx
        rw [h1, h2]
        exact hfmt y hy
      obtain ⟨l, hsub, hperm⟩ := remove_docIds_sublist it.queue_id w.queue
      have hq2 : (((remove_from_queue it.queue_id w.queue).1).map
          QueueItem.document_id).Nodup :=
        hperm.nodup_iff.mpr (hnd.sublist hsub)
      have hq3 : ∀ d', d' ∈ ((remove_from_queue it.queue_id w.queue).1).map
          QueueItem.document_id →
          d' ∉ (w.meta ++ [mkProcessingMeta it now]).map MetaRec.document_id := by
        intro d' hd' hmem
        rw [List.map_append] at hmem
        rcases List.mem_append.mp hmem with hmem | hmem
        · exact hdisj d' (hsub.subset (hperm.mem_iff.mp hd')) hmem
        · simp only [List.map_cons, List.map_nil, List.mem_singleton,
            mkProcessingMeta] at hmem
          subst hmem
          rw [hqid] at hd'
          exact not_mem_docIds_remove it.document_id w.queue hfmt hnd hd'
      cases outcome with
      | completes =>
        simp only [process_queue_step, hfind]
        refine ⟨hq1, hq2, ?_⟩
        intro d' hd'
        show d' ∉ ((process_document env it.document_id
            (w.meta ++ [mkProcessingMeta it now]) true).1).map MetaRec.document_id
        rw [process_document_map_docId]
        exact hq3 d' hd'
      | raises msg =>
        simp only [process_queue_step, hfind]
        refine ⟨hq1, hq2, ?_⟩
        intro d' hd'
        show d' ∉ (metaUpdateFirst it.document_id
            (fun r => { r with
                processing_status := "failed"
                error_message := some (pyTake msg 500) })
            (w.meta ++ [mkProcessingMeta it now])).map MetaRec.document_id
        rw [map_docId_updFail]
        exact hq3 d' hd'
  | adminRemove w qid hr ih =>
    obtain ⟨hfmt, hnd, hdisj⟩ := ih
    cases hget : get_queue_item qid w.queue with
    | none =>
      simp only [admin_remove_from_queue, hget]
      exact ⟨hfmt, hnd, hdisj⟩
    | some it =>
      by_cases hst : it.status = "pending" ∨ it.status = "processing"
      · simp only [admin_remove_from_queue, hget, if_pos hst]
        refine ⟨?_, ?_, ?_⟩
        · intro x hx
          obtain ⟨y, hy, h1, h2, _⟩ := mem_remove_fields qid w.queue x hx
          rw [h1, h2]
          exact hfmt y hy
        · obtain ⟨l, hsub, hperm⟩ := remove_docIds_sublist qid w.queue
          exact hperm.nodup_iff.mpr (hnd.sublist hsub)
        · intro d' hd' hmem
          obtain ⟨l, hsub, hperm⟩ := remove_docIds_sublist qid w.queue
          exact hdisj d' (hsub.subset (hperm.mem_iff.mp hd'))
            (((metaDeleteFirst_sublist it.document_id w.meta).map
              MetaRec.document_id).subset hmem)
      · simp only [admin_remove_from_queue, hget, if_neg hst]
        exact ⟨hfmt, hnd, hdisj⟩
  | recover w now dbError hr ih =>
    obtain ⟨hfmt, hnd, hdisj⟩ := ih
    cases dbError with
    | some e =>
      simp only [recover_orphaned_processes]
      exact ⟨hfmt, hnd, hdisj⟩
    | none =>
      simp only [recover_orphaned_processes]
      refine ⟨hfmt, hnd, ?_⟩
      intro d' hd'
      show d' ∉ (recover_orphaned now w.meta).map MetaRec.document_id
      rw [recover_orphaned_map_docId]
      exact hdisj d' hd'

/-- C4.  At every reachable state of the upload/process/remove lifecycle no
document id has both an upload-queue entry and a metadata record: upload
admission creates only the queue entry, and the queue processor creates the
metadata record only after removing the item from the queue. -/
theorem queue_metadata_mutual_exclusion (w : World) (h : Reachable w) :
    ∀ d, ¬ (d ∈ w.queue.map QueueItem.document_id
      ∧ d ∈ w.meta.map MetaRec.document_id) :=
  fun d hd => (reachable_wf w h).2.2 d hd.1 hd.2

/-- Witness for C4 at the reachable one-item world obtained by uploading
document `"doc1"` into the empty state. -/
theorem queue_metadata_mutual_exclusion_witness :
    ¬ ("doc1" ∈ worldW.queue.map QueueItem.document_id
      ∧ "doc1" ∈ worldW.meta.map MetaRec.document_id) :=
  queue_metadata_mutual_exclusion worldW
    (show Reachable worldW from
      Reachable.upload ⟨[], []⟩ "doc1" Reachable.init (by simp) (by simp)) "doc1"

/-- Witness for C2 at a one-item queue with a raising pipeline call. -/
theorem processor_catches_pipeline_failure_witness :
    (process_queue_step worldW (pipeEnvOk (.ok "t")) (.raises "boom") 0).2 =
      some (mkQueueItem "doc1" 1)
    ∧ (∃ r2, metaFind (mkQueueItem "doc1" 1).document_id
          (process_queue_step worldW (pipeEnvOk (.ok "t")) (.raises "boom") 0).1.meta
          = some r2
        ∧ r2.processing_status = "failed"
        ∧ r2.error_message = some (pyTake "boom" 500)
        ∧ (pyTake "boom" 500).length ≤ 500)
    ∧ ∀ y ∈ worldW.queue, y.queue_id ≠ (mkQueueItem "doc1" 1).queue_id →
        y.document_id ∈
          ((process_queue_step worldW (pipeEnvOk (.ok "t")) (.raises "boom") 0).1.queue.map
            QueueItem.document_id) :=
  processor_catches_pipeline_failure worldW (pipeEnvOk (.ok "t")) "boom" 0
    (mkQueueItem "doc1" 1) (by decide)

/-! ## Startup recovery (claim C7) -/

/-- C7.  Startup recovery forces exactly the stale `processing`/`uploading`
metadata records (strictly older than the 30-minute threshold) to `failed`
with the fixed re-upload message: afterwards no stale record is still
`processing`/`uploading`, non-matching records are untouched, the upload
queue is never touched, and a storage error during recovery is swallowed,
leaving the state unchanged while startup still proceeds. -/
theorem startup_recovery_spec (now : Int) (m : List MetaRec) :
    (∀ r ∈ recover_orphaned now m,
        (r.processing_status = "processing" ∨ r.processing_status = "uploading") →
        ¬ r.upload_date < now - 1800)
    ∧ (∀ r ∈ m, isOrphan now r = false → r ∈ recover_orphaned now m)
    ∧ (∀ r ∈ m, isOrphan now r = true →
        { r with
          processing_status := "failed"
          error_message := some recoveryMessage } ∈ recover_orphaned now m)
    ∧ (∀ (w : World) (dbError : Option String),
        (recover_orphaned_processes now dbError w).queue = w.queue)
    ∧ ∀ (w : World) (e : String),
        recover_orphaned_processes now (some e) w = w
        ∧ (app_startup now (some e) w).2 = true := by
  refine ⟨?_, ?_, ?_, ?_, ?_⟩
  · intro r2 hr2 hst hstale
    obtain ⟨r, hr, hrf⟩ := List.mem_map.mp hr2
    by_cases ho : isOrphan now r
    · rw [if_pos ho] at hrf
      subst hrf
      rcases hst with h | h
      · exact absurd (show ("failed" : String) = "processing" from h) (by decide)
      · exact absurd (show ("failed" : String) = "uploading" from h) (by decide)
    · rw [if_neg ho] at hrf
      subst hrf
      apply ho
      rcases hst with h | h <;> simp [isOrphan, h, hstale]
  · intro r hr ho
    have : (if isOrphan now r then
        { r with
          processing_status := "failed"
          error_message := some recoveryMessage } else r) = r := by
      rw [ho]
      simp
    rw [recover_orphaned, ← this]
    exact List.mem_map_of_mem _ hr
  · intro r hr ho
    have : (if isOrphan now r then
        { r with
          processing_status := "failed"
          error_message := some recoveryMessage } else r) =
        { r with
          processing_status := "failed"
          error_message := some recoveryMessage } := by
      rw [ho]
      simp
    rw [recover_orphaned, ← this]
    exact List.mem_map_of_mem _ hr
  · intro w dbError
    cases dbError <;> rfl
  · intro w e
    exact ⟨rfl, rfl⟩

/-- Witness for C7: with `now = 3600` seconds the stale record (upload date
0, 45+ minutes old) is forced to failed with the fixed message while the
recent record (upload date 3000) is untouched. -/
theorem startup_recovery_spec_witness :
    { staleRecW with
      processing_status := "failed"
      error_message := some recoveryMessage } ∈
        recover_orphaned 3600 [staleRecW, freshRecW]
    ∧ freshRecW ∈ recover_orphaned 3600 [staleRecW, freshRecW] :=
  ⟨(startup_recovery_spec 3600 [staleRecW, freshRecW]).2.2.1 staleRecW
      (by decide) (by decide),
    (startup_recovery_spec 3600 [staleRecW, freshRecW]).2.1 freshRecW
      (by decide) (by decide)⟩

/-! ## Progress broadcaster (claim C8) -/

theorem getListeners_setListeners (d : String) (ls : List Chan) :
    ∀ st : EventsState, getListeners d (setListeners d ls st) = ls := by
  intro st
  induction st with
  | nil => simp [setListeners, getListeners]
  | cons p ps ih =>
    by_cases h : p.1 = d
    · simp [setListeners, if_pos h, getListeners]
    · simp only [setListeners, if_neg h]
      simp only [getListeners] at ih ⊢
      rw [List.find?_cons_of_neg _ (by simp [h])]
      exact ih

/-- C8.  `broadcast_update` with zero registered subscribers returns with the
state unchanged (the update is dropped, nothing persists, no error); with
subscribers it stamps the update with the timestamp and delivers it to every
healthy registered channel, keeps a full channel registered but unchanged
(skipped with a warning), and discards broken channels instead of
propagating an error. -/
theorem broadcast_update_spec (now : Int) (docId : String) (u : Update)
    (st : EventsState) :
    (getListeners docId st = [] → broadcast_update now docId u st = st)
    ∧ (getListeners docId st ≠ [] →
        (∀ c ∈ getListeners docId st, c.full = false → c.broken = false →
          { c with msgs := c.msgs ++ [{ u with timestamp := some now }] } ∈
            getListeners docId (broadcast_update now docId u st))
        ∧ (∀ c ∈ getListeners docId st, c.full = true →
            c ∈ getListeners docId (broadcast_update now docId u st))
        ∧ ∀ c2 ∈ getListeners docId (broadcast_update now docId u st),
            c2.broken = true → c2.full = true) := by
  constructor
  · intro hempty
    simp [broadcast_update, hempty]
  · intro hne
    cases hls : getListeners docId st with
    | nil => exact absurd hls hne
    | cons c0 cs =>
      have hb : broadcast_update now docId u st =
          setListeners docId
            ((c0 :: cs).filterMap (deliverTo { u with timestamp := some now })) st := by
        simp [broadcast_update, hls]
      have hg : getListeners docId (broadcast_update now docId u st) =
          (getListeners docId st).filterMap
            (deliverTo { u with timestamp := some now }) := by
        rw [hb, getListeners_setListeners, hls]
      refine ⟨?_, ?_, ?_⟩
      · intro c hc hfull hbroken
        rw [hg]
        refine List.mem_filterMap.mpr ⟨c, by rw [hls]; exact hc, ?_⟩
        simp [deliverTo, hfull, hbroken]
      · intro c hc hfull
        rw [hg]
        refine List.mem_filterMap.mpr ⟨c, by rw [hls]; exact hc, ?_⟩
        simp [deliverTo, hfull]
      · intro c2 hc2 hbroken
        rw [hg] at hc2
        obtain ⟨c, hc, hdel⟩ := List.mem_filterMap.mp hc2
        by_cases hfull : c.full
        · rw [deliverTo, if_pos hfull] at hdel
          cases hdel
          exact hfull
        · rw [deliverTo, if_neg hfull] at hdel
          by_cases hbr : c.broken
          · rw [if_pos hbr] at hdel
            cases hdel
          · rw [if_neg hbr] at hdel
            cases hdel
            exact absurd hbroken (by simp [hbr])

/-- Witness for C8 at the three-channel state `eventsW`: the healthy channel
receives the stamped update, the full channel stays registered unchanged. -/
theorem broadcast_update_spec_witness :
    { chanOkW with
      msgs := chanOkW.msgs ++ [{ updateW with timestamp := some 5 }] } ∈
        getListeners "d" (broadcast_update 5 "d" updateW eventsW)
    ∧ chanFullW ∈ getListeners "d" (broadcast_update 5 "d" updateW eventsW) :=
  ⟨((broadcast_update_spec 5 "d" updateW eventsW).2 (by decide)).1 chanOkW
      (by decide) rfl rfl,
    ((broadcast_update_spec 5 "d" updateW eventsW).2 (by decide)).2.1 chanFullW
      (by decide) rfl⟩

/-! ## Concurrent enqueues (claim C9) -/

/-- C9 (evaluation).  `add_to_queue` does not serialize its two database
round trips: under the interleaving read(A), read(B), insert(A), insert(B)
from the empty queue both concurrent enqueues capture `next_position = 1`
and both items are inserted with position 1 — a duplicate.  Under the
serialized schedule the positions are 1 and 2, matching two sequential
`add_to_queue` calls. -/
theorem concurrent_enqueue_duplicate_positions :
    ((runEnqSchedule "a" "b" [.readA, .readB, .insertA, .insertB]
        { queue := [] }).queue.map QueueItem.position = [1, 1])
    ∧ ((runEnqSchedule "a" "b" [.readA, .insertA, .readB, .insertB]
        { queue := [] }).queue.map QueueItem.position = [1, 2])
    ∧ (runEnqSchedule "a" "b" [.readA, .insertA, .readB, .insertB]
        { queue := [] }).queue =
      (add_to_queue "b" ((add_to_queue "a" []).1)).1 :=
  ⟨by decide, by decide, by decide⟩

end Chatbot
